import Mathlib

/-!
# msh: a shallow embedding of `src/msh.c`

The tokenizer (`parsing_command`), the redirection resolver
(`redirect_command`), the built-in dispatcher (`handle_built_in`), the
process executor (`execute_command`) and the body of the read loop of `main`
are rendered as Lean functions.

* A C string is the list of its characters before the terminating NUL.
* The token array is the 32-slot block returned by `malloc`: a slot is
  `Slot.uninit` until the program stores into it, `Slot.null` when it holds
  `NULL`, and `Slot.str s` when it points to the string `s`.
* System calls are answered by a `Sys` record of oracles and are logged, in
  program order, in the `trace` of the `World`.
* A function that may not return to its caller yields an `Outcome`.
-/

namespace Msh

/-- C string contents: the characters before the terminating NUL. -/
abbrev Str := List Char

/-- `#define WHITESPACE " \t\n"` (line 38). -/
def WHITESPACE : List Char := [' ', '\t', '\n']

/-- `#define MAX_COMMAND_SIZE 255` (line 43). -/
def MAX_COMMAND_SIZE : Nat := 255

/-- `#define MAX_NUM_ARGUMENTS 32` (line 45). -/
def MAX_NUM_ARGUMENTS : Nat := 32

/-- One `char *` cell of the token array. -/
inductive Slot where
  | uninit : Slot
  | null : Slot
  | str (s : Str) : Slot
  deriving DecidableEq, Repr

/-- The read `token[i]`: a slot outside the allocated block reads as `uninit`. -/
def slot (token : List Slot) (i : Nat) : Slot := token.getD i Slot.uninit

/-- The scan of `strsep` over a non-NULL `*stringp`: the characters before the
first delimiter are the returned token; `*stringp` becomes the text after
that delimiter, or NULL when the string holds no delimiter. -/
def strsep_scan (delim : List Char) : Str → Str × Option Str
  | [] => ([], none)
  | c :: cs =>
    if c ∈ delim then ([], some cs)
    else ((c :: (strsep_scan delim cs).1), (strsep_scan delim cs).2)

/-- `strsep(&stringp, delim)`: the returned pointer and the new `*stringp`. -/
def strsep (stringp : Option Str) (delim : List Char) : Option Str × Option Str :=
  match stringp with
  | none => (none, none)
  | some s => (some (strsep_scan delim s).1, (strsep_scan delim s).2)

/-- `strndup(s, n)`: a copy of at most `n` characters of `s`. -/
def strndup (s : Str) (n : Nat) : Str := s.take n

/-- `strlen(s)`. -/
def strlen (s : Str) : Nat := s.length

/-- The `while` loop of `parsing_command` (lines 69-79).  `fuel` bounds the
number of evaluations of the loop condition; the counter test `token_count < 11`
ends the loop after at most 12 of them. -/
def parsing_loop : Nat → Option Str → Nat → List Slot → List Slot
  | 0, _, _, token => token
  | fuel + 1, working_string, token_count, token =>
    match strsep working_string WHITESPACE with
    | (none, _) => token
    | (some argument_pointer, working_string') =>
      if token_count < 11 then
        parsing_loop fuel working_string' (token_count + 1)
          (token.set token_count
            (if strlen (strndup argument_pointer MAX_COMMAND_SIZE) = 0 then Slot.null
             else Slot.str (strndup argument_pointer MAX_COMMAND_SIZE)))
      else token

/-- `parsing_command` (lines 59-81): a fresh block of `MAX_NUM_ARGUMENTS`
uninitialised slots, filled by the loop. -/
def parsing_command (command_string : Str) : List Slot :=
  parsing_loop 12 (some command_string) 0 (List.replicate MAX_NUM_ARGUMENTS Slot.uninit)

/-! ## The process state and its system calls -/

/-- The access flags passed to `open` (line 94). -/
inductive OFlag where
  | O_RDWR : OFlag
  | O_CREAT : OFlag
  | O_TRUNC : OFlag
  deriving DecidableEq, Repr

/-- The permission bits passed to `open` (line 94). -/
inductive ModeBit where
  | S_IRUSR : ModeBit
  | S_IWUSR : ModeBit
  deriving DecidableEq, Repr

/-- What the process does that is visible outside it, in program order.  The
two `call_` events are ghost marks left by `main` when it calls a function. -/
inductive Event where
  | err : Event
  | chdir (path : Str) (ok : Bool) : Event
  | sys_open (path : Option Str) (flags : List OFlag) (mode : List ModeBit) (ok : Bool) : Event
  | dup2 (ok : Bool) : Event
  | close (ok : Bool) : Event
  | fork (pid : Int) : Event
  | access (path : Str) (ok : Bool) : Event
  | execv (path : Str) (argv : List Str) : Event
  | wait : Event
  | prompt : Event
  | call_handle_built_in : Event
  | call_execute_command : Event
  deriving DecidableEq, Repr

/-- The state of one process: its working directory, the file its standard
output is bound to (`none`: the stream it inherited), and its trace. -/
structure World where
  cwd : Str
  stdout : Option Str
  trace : List Event
  deriving DecidableEq, Repr

/-- The answers of the operating system.  `chdir cwd p` is the new working
directory, or `none` when `chdir(p)` returns non-zero; `open_ok cwd p` tells
whether `open(p, ...)` returns a descriptor `>= 0`; `access cwd p` tells whether
`access(p, X_OK) == 0`; `execv cwd p argv` tells whether `execv` replaces the
image (`false`: it returns `-1`). -/
structure Sys where
  chdir : Str → Str → Option Str
  open_ok : Str → Str → Bool
  access : Str → Str → Bool
  execv : Str → Str → List Str → Bool

/-- How a call ends: it returns to its caller, the process ends through
`exit(status)`, the process image is replaced by `execv`, or the call reads a
slot that was never written or dereferences `NULL`. -/
inductive Outcome (α : Type) where
  | ret (a : α) : Outcome α
  | terminated (status : Nat) : Outcome α
  | replaced (path : Str) (argv : List Str) : Outcome α
  | undef : Outcome α
  deriving DecidableEq, Repr

/-- Append one event to the trace. -/
def emit (e : Event) (w : World) : World := { w with trace := w.trace ++ [e] }

/-- `err_handler` (lines 50-54): one fixed diagnostic line on the error stream. -/
def err_handler (w : World) : World := emit Event.err w

/-- The redirection marker compared against in line 88. -/
def GT : Str := ['>']

/-- The `for` loop of `redirect_command` (lines 87-108), from index `i`.
`fuel` bounds the number of evaluations of the loop condition. -/
def redirect_loop (sys : Sys) : Nat → Nat → List Slot → World → Outcome (List Slot) × World
  | 0, _, _, w => (Outcome.undef, w)
  | fuel + 1, i, token, w =>
    match slot token i with
    | Slot.uninit => (Outcome.undef, w)
    | Slot.null => (Outcome.ret token, w)
    | Slot.str s =>
      if s = GT then
        match slot token (i + 1) with
        | Slot.uninit => (Outcome.undef, w)
        | Slot.null =>
          -- open(NULL, ...) fails: fd < 0
          let w1 := emit (Event.sys_open none [OFlag.O_RDWR, OFlag.O_CREAT, OFlag.O_TRUNC]
            [ModeBit.S_IRUSR, ModeBit.S_IWUSR] false) w
          let w2 := err_handler w1
          let w3 := emit (Event.dup2 false) w2
          let w4 := emit (Event.close false) w3
          (Outcome.ret (token.set i Slot.null), w4)
        | Slot.str p =>
          if sys.open_ok w.cwd p then
            let w1 := emit (Event.sys_open (some p) [OFlag.O_RDWR, OFlag.O_CREAT, OFlag.O_TRUNC]
              [ModeBit.S_IRUSR, ModeBit.S_IWUSR] true) w
            let w3 := emit (Event.dup2 true) { w1 with stdout := some p }
            let w4 := emit (Event.close true) w3
            (Outcome.ret (token.set i Slot.null), w4)
          else
            let w1 := emit (Event.sys_open (some p) [OFlag.O_RDWR, OFlag.O_CREAT, OFlag.O_TRUNC]
              [ModeBit.S_IRUSR, ModeBit.S_IWUSR] false) w
            let w2 := err_handler w1
            let w3 := emit (Event.dup2 false) w2
            let w4 := emit (Event.close false) w3
            (Outcome.ret (token.set i Slot.null), w4)
      else redirect_loop sys fuel (i + 1) token w

/-- `redirect_command` (lines 86-109); the array it has updated in place is
returned.  A slot past the block reads as `uninit`, so the loop condition is
evaluated at most `token.length + 1` times. -/
def redirect_command (sys : Sys) (token : List Slot) (w : World) : Outcome (List Slot) × World :=
  redirect_loop sys (token.length + 1) 0 token w

/-- `handle_built_in` (lines 114-134). -/
def handle_built_in (sys : Sys) (token : List Slot) (w : World) : Outcome Int × World :=
  match slot token 0 with
  | Slot.uninit => (Outcome.undef, w)
  | Slot.null => (Outcome.undef, w)
  | Slot.str t0 =>
    if t0 = ['e', 'x', 'i', 't'] ∨ t0 = ['q', 'u', 'i', 't'] then (Outcome.terminated 0, w)
    else if t0 = ['c', 'd'] then
      match slot token 1 with
      | Slot.uninit => (Outcome.undef, w)
      | Slot.null => (Outcome.ret 1, err_handler w)
      | Slot.str t1 =>
        match slot token 2 with
        | Slot.uninit => (Outcome.undef, w)
        | Slot.str _ => (Outcome.ret 1, err_handler w)
        | Slot.null =>
          match sys.chdir w.cwd t1 with
          | some d => (Outcome.ret 1, { emit (Event.chdir t1 true) w with cwd := d })
          | none => (Outcome.ret 1, err_handler (emit (Event.chdir t1 false) w))
    else (Outcome.ret 0, w)

/-- The array `paths` of line 152. -/
def paths : List Str :=
  [['/', 'b', 'i', 'n', '/'], ['/', 'u', 's', 'r', '/', 'b', 'i', 'n', '/'],
   ['/', 'u', 's', 'r', '/', 'l', 'o', 'c', 'a', 'l', '/', 'b', 'i', 'n', '/'], ['.', '/']]

/-- `snprintf(buf, size, "%s%s", a, b)`: at most `size - 1` characters are kept. -/
def snprintf (size : Nat) (a b : Str) : Str := (a ++ b).take (size - 1)

/-- The search loop of lines 156-163 over the remaining entries of `paths`:
the path on which `access` succeeded (`flag = 1`), or `none` (`flag = 0`). -/
def search_loop (sys : Sys) (c : Str) : List Str → World → Option Str × World
  | [], w => (none, w)
  | p :: ps, w =>
    if sys.access w.cwd (snprintf MAX_COMMAND_SIZE p c) then
      (some (snprintf MAX_COMMAND_SIZE p c), emit (Event.access (snprintf MAX_COMMAND_SIZE p c) true) w)
    else search_loop sys c ps (emit (Event.access (snprintf MAX_COMMAND_SIZE p c) false) w)

/-- The argument vector as `execv` reads it: the strings before the first
`NULL`; `none` when an unwritten slot, or the end of the block, comes first. -/
def argv : List Slot → Option (List Str)
  | [] => none
  | Slot.uninit :: _ => none
  | Slot.null :: _ => some []
  | Slot.str s :: rest => (argv rest).map (fun a => s :: a)

/-- Lines 151-171, in the child: the search over `paths` for the command name
`token[0]`, then `execv` on the path found, or `err_handler` when none was. -/
def locate_and_exec (sys : Sys) (token : List Slot) (w : World) : Outcome Unit × World :=
  match slot token 0 with
  | Slot.str c =>
    match search_loop sys c paths w with
    | (some path_executable, w2) =>
      match argv token with
      | some args =>
        if sys.execv w2.cwd path_executable args then
          (Outcome.replaced path_executable args, emit (Event.execv path_executable args) w2)
        else (Outcome.ret (), emit (Event.execv path_executable args) w2)
      | none => (Outcome.undef, w2)
    | (none, w2) => (Outcome.ret (), err_handler w2)
  | Slot.null => (Outcome.undef, w)
  | Slot.uninit => (Outcome.undef, w)

/-- `execute_command` (lines 140-177) as run by the process in which `fork`
returned `pid`. -/
def execute_command (sys : Sys) (pid : Int) (token : List Slot) (w : World) : Outcome Unit × World :=
  if pid < 0 then (Outcome.ret (), err_handler (emit (Event.fork pid) w))
  else if pid = 0 then
    match redirect_command sys token (emit (Event.fork pid) w) with
    | (Outcome.ret token1, w1) => locate_and_exec sys token1 w1
    | (Outcome.terminated st, w1) => (Outcome.terminated st, w1)
    | (Outcome.replaced p a, w1) => (Outcome.replaced p a, w1)
    | (Outcome.undef, w1) => (Outcome.undef, w1)
  else (Outcome.ret (), emit Event.wait (emit (Event.fork pid) w))

/-- Lines 214-223 of `main`: what the loop does with one line delivered by
`fgets`; `pid` is what `fork` returns in this process if it is called. -/
def main_iteration (sys : Sys) (pid : Int) (input_command : Str) (w : World) : Outcome Unit × World :=
  match slot (parsing_command input_command) 0 with
  | Slot.uninit => (Outcome.undef, w)
  | Slot.null => (Outcome.ret (), w)
  | Slot.str _ =>
    match handle_built_in sys (parsing_command input_command) (emit Event.call_handle_built_in w) with
    | (Outcome.ret r, w1) =>
      if r = 0 then
        execute_command sys pid (parsing_command input_command) (emit Event.call_execute_command w1)
      else (Outcome.ret (), w1)
    | (Outcome.terminated st, w1) => (Outcome.terminated st, w1)
    | (Outcome.replaced p a, w1) => (Outcome.replaced p a, w1)
    | (Outcome.undef, w1) => (Outcome.undef, w1)

/-- The `while(1)` loop of `main` (lines 201-224) over the lines that `fgets`
delivers, each with the value `fork` returns in this process while the line is
processed; at the end of the input `fgets` fails with `feof` set and the
process ends through `exit(0)`. -/
def main_loop (sys : Sys) (interactive : Bool) : List (Str × Int) → World → Outcome Unit × World
  | [], w => (Outcome.terminated 0, if interactive then emit Event.prompt w else w)
  | (input_command, pid) :: rest, w =>
    match main_iteration sys pid input_command (if interactive then emit Event.prompt w else w) with
    | (Outcome.ret _, w1) => main_loop sys interactive rest w1
    | (Outcome.terminated st, w1) => (Outcome.terminated st, w1)
    | (Outcome.replaced p a, w1) => (Outcome.replaced p a, w1)
    | (Outcome.undef, w1) => (Outcome.undef, w1)

/-! ## Vocabulary of the specification -/

/-- The words of a command line joined by single spaces. -/
def unwords (words : List Str) : Str := List.intercalate [' '] words

/-- A word: non-empty, at most `MAX_COMMAND_SIZE` characters, none of them a
delimiter. -/
def IsWord (w : Str) : Prop := w ≠ [] ∧ w.length ≤ MAX_COMMAND_SIZE ∧ ∀ c ∈ w, c ∉ WHITESPACE

/-- The fields of a line: the line cut at every single delimiter character. -/
def fields : Str → List Str
  | [] => [[]]
  | c :: cs =>
    if c ∈ WHITESPACE then [] :: fields cs
    else
      match fields cs with
      | [] => [[c]]
      | f :: fs => (c :: f) :: fs

/-- The fields still ahead of `strsep` when `*stringp` is `o`. -/
def fields_ahead : Option Str → List Str
  | none => []
  | some s => fields s

/-- What lines 73-77 store for a field: `NULL` for an empty one, otherwise its
copy of at most `MAX_COMMAND_SIZE` characters. -/
def slot_of (f : Str) : Slot :=
  if strlen (strndup f MAX_COMMAND_SIZE) = 0 then Slot.null
  else Slot.str (strndup f MAX_COMMAND_SIZE)

/-- The events the loop of `main` leaves before it reads a line: the prompt,
in interactive mode only (lines 202-204). -/
def prompts (interactive : Bool) : List Event := if interactive then [Event.prompt] else []

/-- The command name `cd`. -/
def CD : Str := ['c', 'd']

/-- The tokens of a raw line as the specification counts them: the maximal
runs of characters that are not delimiters, in order, that is the non-empty
fields of the line. -/
def line_tokens (line : Str) : List Str := (fields line).filter (fun f => decide (f ≠ []))

/-- The `execv` calls of a trace, in order: path and argument list. -/
def exec_calls : List Event → List (Str × List Str)
  | [] => []
  | Event.execv path args :: t => (path, args) :: exec_calls t
  | _ :: t => exec_calls t

/-- A world to start from: working directory `/`, inherited standard output,
empty trace. -/
def world0 : World := { cwd := ['/'], stdout := none, trace := [] }

/-- A system in which `/tmp` is the one directory `chdir` accepts, every `open`
succeeds, `/bin/ls` and `./ls` are the executable files, and `execv` succeeds. -/
def sys_demo : Sys :=
  { chdir := fun _ p => if p = "/tmp".toList then some p else none
    open_ok := fun _ _ => true
    access := fun _ p => p = "/bin/ls".toList || p = "./ls".toList
    execv := fun _ _ _ => true }

/-- The `access` calls of the search loop over the entries `ps` of `paths`,
in order, up to the first that succeeds. -/
def probes (sys : Sys) (cwd c : Str) : List Str → List Event
  | [] => []
  | p :: ps =>
    if sys.access cwd (snprintf MAX_COMMAND_SIZE p c) then
      [Event.access (snprintf MAX_COMMAND_SIZE p c) true]
    else Event.access (snprintf MAX_COMMAND_SIZE p c) false :: probes sys cwd c ps

/-- A command name of 250 characters: 249 times `a`, then `b`. -/
def long_name : Str := List.replicate 249 'a' ++ ['b']

/-- A system whose one executable file is `/bin/` followed by 249 times `a`. -/
def sys_long : Sys :=
  { chdir := fun _ _ => none
    open_ok := fun _ _ => false
    access := fun _ p => p = ['/', 'b', 'i', 'n', '/'] ++ List.replicate 249 'a'
    execv := fun _ _ _ => true }

/-- The string a slot points to, if it points to one. -/
def slot_str : Slot → Option Str
  | Slot.str s => some s
  | _ => none

/-- The `open` calls of a trace, in order: the path argument (`none`: `NULL`)
and whether the call succeeded. -/
def open_calls : List Event → List (Option Str × Bool)
  | [] => []
  | Event.sys_open path _ _ ok :: t => (path, ok) :: open_calls t
  | _ :: t => open_calls t

/-- A system in which no `open` succeeds, `/bin/ls` is the executable file and
`execv` succeeds. -/
def sys_closed : Sys :=
  { chdir := fun _ _ => none
    open_ok := fun _ _ => false
    access := fun _ p => p = "/bin/ls".toList
    execv := fun _ _ _ => true }

/-- The command name `exit`. -/
def EXIT : Str := ['e', 'x', 'i', 't']

/-- The command name `quit`. -/
def QUIT : Str := ['q', 'u', 'i', 't']

/-- The world `w1` continues `w`: its trace is the trace of `w` with events
added at the end. -/
def Continues (w w1 : World) : Prop := ∃ tail, w1.trace = w.trace ++ tail

/-- A line is dispatched when the iteration on it leaves, first of all, the
mark of the call of `handle_built_in`. -/
def Dispatched (sys : Sys) (pid : Int) (line : Str) (w : World) : Prop :=
  ∃ tail, (main_iteration sys pid line w).2.trace = w.trace ++ Event.call_handle_built_in :: tail

/-- A line that starts with a character that is not a delimiter. -/
def StartsWithToken (line : Str) : Prop := ∃ c cs, line = c :: cs ∧ c ∉ WHITESPACE

/-- The strings held by the slots of a block, in slot order. -/
def str_tokens : List Slot → List Str
  | [] => []
  | Slot.str s :: t => s :: str_tokens t
  | Slot.null :: t => str_tokens t
  | Slot.uninit :: t => str_tokens t

/-- The strings `ts` occur in `line` one after the other, from left to right,
without overlap. -/
def occur_in_order : List Str → Str → Prop
  | [], _ => True
  | t :: ts, line => ∃ a rest, line = a ++ t ++ rest ∧ occur_in_order ts rest

/-- A line put together from its fields: each field but the last is followed
by one delimiter. -/
inductive Joined : List Str → Str → Prop where
  | last (f : Str) : Joined [f] f
  | cons (f : Str) (d : Char) (fs : List Str) (r : Str) :
      d ∈ WHITESPACE → Joined fs r → Joined (f :: fs) (f ++ d :: r)

/-! ## The tokenizer -/

theorem fields_eq_strsep (s : Str) :
    fields s = (strsep_scan WHITESPACE s).1 :: fields_ahead (strsep_scan WHITESPACE s).2 := by
  induction s with
  | nil => simp [fields, strsep_scan, fields_ahead]
  | cons c cs ih =>
    by_cases hc : c ∈ WHITESPACE
    · simp [fields, strsep_scan, hc, fields_ahead]
    · simp [fields, strsep_scan, hc, ih]

theorem set_length_append (pre suf : List Slot) (x y : Slot) :
    (pre ++ y :: suf).set pre.length x = pre ++ x :: suf := by
  induction pre with
  | nil => simp
  | cons a pre ih => simp [ih]

/-- The loop writes, from slot `token_count` on, the slots of the fields still
ahead, up to slot 10, and leaves every other slot as it was. -/
theorem parsing_loop_eq (fuel : Nat) :
    ∀ (o : Option Str) (pre suf : List Slot),
      pre.length ≤ 11 → 12 ≤ fuel + pre.length → 11 - pre.length ≤ suf.length →
      parsing_loop fuel o pre.length (pre ++ suf)
        = pre ++ ((fields_ahead o).take (11 - pre.length)).map slot_of
            ++ suf.drop ((fields_ahead o).take (11 - pre.length)).length := by
  induction fuel with
  | zero => intro o pre suf h1 h2; omega
  | succ fuel ih =>
    intro o pre suf h1 h2 h3
    cases o with
    | none => simp [parsing_loop, strsep, fields_ahead]
    | some s =>
      by_cases hlt : pre.length < 11
      · cases suf with
        | nil => simp at h3; omega
        | cons y suf =>
          have hstep := ih (strsep_scan WHITESPACE s).2 (pre ++ [slot_of (strsep_scan WHITESPACE s).1]) suf
            (by simp; omega) (by simp; omega) (by simp at h3 ⊢; omega)
          have hk : 11 - pre.length = (11 - (pre.length + 1)) + 1 := by omega
          simp only [List.length_append, List.length_singleton, List.append_assoc,
            List.singleton_append] at hstep
          simp only [parsing_loop, strsep, hlt, if_true, set_length_append, fields_ahead]
          rw [fields_eq_strsep s, hk, List.take_succ_cons]
          simpa [slot_of] using hstep
      · have h11 : pre.length = 11 := by omega
        simp [parsing_loop, strsep, hlt, h11]

/-- The block `parsing_command` returns: the slots of the first 11 fields of
the line, then slots that were never written. -/
theorem parsing_command_eq (s : Str) :
    parsing_command s
      = ((fields s).take 11).map slot_of
          ++ List.replicate (32 - ((fields s).take 11).length) Slot.uninit := by
  have h := parsing_loop_eq 12 (some s) [] (List.replicate 32 Slot.uninit)
    (by simp) (by simp) (by simp)
  simp only [List.length_nil, List.nil_append, Nat.sub_zero, fields_ahead,
    List.drop_replicate] at h
  exact h

/-- Any fuel of at least 12 gives the result of `parsing_command`: the loop
never stops for lack of fuel. -/
theorem parsing_loop_fuel (fuel : Nat) (h : 12 ≤ fuel) (s : Str) :
    parsing_loop fuel (some s) 0 (List.replicate MAX_NUM_ARGUMENTS Slot.uninit)
      = parsing_command s := by
  have h1 := parsing_loop_eq fuel (some s) [] (List.replicate 32 Slot.uninit)
    (by simp) (by simpa using h) (by simp)
  have h2 := parsing_loop_eq 12 (some s) [] (List.replicate 32 Slot.uninit)
    (by simp) (by simp) (by simp)
  simp only [List.length_nil, List.nil_append] at h1 h2
  simp only [parsing_command, MAX_NUM_ARGUMENTS]
  rw [h1, h2]

theorem fields_ne_nil (s : Str) : fields s ≠ [] := by
  rw [fields_eq_strsep]; simp

theorem fields_word (w : Str) (hw : ∀ c ∈ w, c ∉ WHITESPACE) : fields w = [w] := by
  induction w with
  | nil => simp [fields]
  | cons c cs ih =>
    have hc : c ∉ WHITESPACE := hw c (by simp)
    have hcs : ∀ d ∈ cs, d ∉ WHITESPACE := fun d hd => hw d (by simp [hd])
    simp [fields, hc, ih hcs]

theorem fields_word_delim (w rest : Str) (d : Char) (hw : ∀ c ∈ w, c ∉ WHITESPACE)
    (hd : d ∈ WHITESPACE) : fields (w ++ d :: rest) = w :: fields rest := by
  induction w with
  | nil => simp [fields, hd]
  | cons c cs ih =>
    have hc : c ∉ WHITESPACE := hw c (by simp)
    have hcs : ∀ e ∈ cs, e ∉ WHITESPACE := fun e he => hw e (by simp [he])
    simp [fields, hc, ih hcs]

theorem unwords_cons_cons (w v : Str) (ws : List Str) :
    unwords (w :: v :: ws) = w ++ ' ' :: unwords (v :: ws) := by
  simp [unwords, List.intercalate, List.intersperse]

theorem fields_unwords (words : List Str) (hne : words ≠ [])
    (hw : ∀ w ∈ words, ∀ c ∈ w, c ∉ WHITESPACE) : fields (unwords words) = words := by
  induction words with
  | nil => exact absurd rfl hne
  | cons w ws ih =>
    cases ws with
    | nil =>
      have : unwords [w] = w := by simp [unwords, List.intercalate, List.intersperse]
      rw [this]
      exact fields_word w (hw w (by simp))
    | cons v ws =>
      rw [unwords_cons_cons, fields_word_delim w _ ' ' (hw w (by simp)) (by simp [WHITESPACE])]
      rw [ih (by simp) (fun x hx => hw x (by simp [hx]))]

theorem slot_of_word (w : Str) (hw : IsWord w) : slot_of w = Slot.str w := by
  obtain ⟨hne, hlen, _⟩ := hw
  have ht : List.take MAX_COMMAND_SIZE w = w := List.take_of_length_le hlen
  simp [slot_of, strndup, strlen, ht, hne]

theorem map_slot_of_words (words : List Str) (hw : ∀ w ∈ words, IsWord w) :
    words.map slot_of = words.map Slot.str := by
  apply List.map_congr_left
  intro w hmem
  exact slot_of_word w (hw w hmem)

/-- The block returned for words joined by single spaces. -/
theorem parsing_command_unwords (words : List Str) (hne : words ≠ [])
    (hw : ∀ w ∈ words, IsWord w) :
    parsing_command (unwords words)
      = (words.take 11).map Slot.str
          ++ List.replicate (32 - (words.take 11).length) Slot.uninit := by
  rw [parsing_command_eq, fields_unwords words hne (fun w hmem => (hw w hmem).2.2)]
  rw [map_slot_of_words (words.take 11) (fun w hmem => hw w (List.mem_of_mem_take hmem))]

theorem slot_map_str (words : List Str) (rest : List Slot) (k : Nat) (hk : k < words.length) :
    slot (words.map Slot.str ++ rest) k = Slot.str (words.getD k []) := by
  induction words generalizing k with
  | nil => simp at hk
  | cons w ws ih =>
    cases k with
    | zero => simp [slot]
    | succ k =>
      have := ih k (by simpa using hk)
      simpa [slot] using this

/-- Slot 0 is always written: it holds the slot of the first field. -/
theorem slot_zero (s : Str) :
    slot (parsing_command s) 0 = slot_of (strsep_scan WHITESPACE s).1 := by
  rw [parsing_command_eq, fields_eq_strsep]
  simp [slot]

theorem first_field_blank (line : Str) (h : ∀ c ∈ line, c ∈ WHITESPACE) :
    (strsep_scan WHITESPACE line).1 = [] := by
  cases line with
  | nil => rfl
  | cons c cs =>
    have hc : c ∈ WHITESPACE := h c (by simp)
    simp [strsep_scan, hc]

theorem prompt_world (interactive : Bool) (w : World) :
    (if interactive then emit Event.prompt w else w)
      = { w with trace := w.trace ++ prompts interactive } := by
  cases interactive <;> simp [emit, prompts]

/-! ## The dispatcher and the read loop -/

theorem argv_cons_inv (t : List Slot) (a : Str) (as : List Str) (h : argv t = some (a :: as)) :
    ∃ rest, t = Slot.str a :: rest ∧ argv rest = some as := by
  cases t with
  | nil => simp [argv] at h
  | cons x rest =>
    cases x with
    | uninit => simp [argv] at h
    | null => simp [argv] at h
    | str s =>
      simp only [argv, Option.map_eq_some'] at h
      obtain ⟨b, hb, hcons⟩ := h
      simp only [List.cons.injEq] at hcons
      obtain ⟨h1, h2⟩ := hcons
      subst h1; subst h2
      exact ⟨rest, rfl, hb⟩

theorem argv_nil_inv (t : List Slot) (h : argv t = some []) :
    ∃ rest, t = Slot.null :: rest := by
  cases t with
  | nil => simp [argv] at h
  | cons x rest =>
    cases x with
    | uninit => simp [argv] at h
    | null => exact ⟨rest, rfl⟩
    | str s => simp [argv] at h

/-! ## The redirection resolver -/

theorem slot_append (done tail : List Slot) (k : Nat) :
    slot (done ++ tail) (done.length + k) = slot tail k := by
  simp [slot, List.getD_eq_getElem?_getD, List.getElem?_append_right]

theorem slot_append_zero (done tail : List Slot) :
    slot (done ++ tail) done.length = slot tail 0 := by
  simpa using slot_append done tail 0

theorem slot_past_end (token : List Slot) (i : Nat) (h : token.length ≤ i) :
    slot token i = Slot.uninit := by
  simp [slot, List.getD_eq_getElem?_getD, List.getElem?_eq_none h]

/-- More fuel than `token.length - i` changes nothing: the scan from `i` never
stops for lack of fuel. -/
theorem redirect_loop_fuel (sys : Sys) (token : List Slot) (w : World) (fuel : Nat) :
    ∀ i, token.length < fuel + i →
      redirect_loop sys (fuel + 1) i token w = redirect_loop sys fuel i token w := by
  induction fuel with
  | zero =>
    intro i h
    have hs : slot token i = Slot.uninit := slot_past_end token i (by omega)
    simp [redirect_loop, hs]
  | succ fuel ih =>
    intro i h
    have hstep := ih (i + 1) (by omega)
    rw [redirect_loop, redirect_loop.eq_def sys (fuel + 1) i token w]
    simp only [hstep]

/-- The scan steps over tokens that are not the marker. -/
theorem redirect_loop_skip (sys : Sys) (w : World) (tail : List Slot) (pre : List Str) :
    ∀ (done : List Slot) (fuel : Nat), GT ∉ pre →
      redirect_loop sys (fuel + pre.length) done.length (done ++ (pre.map Slot.str ++ tail)) w
        = redirect_loop sys fuel (done.length + pre.length)
            (done ++ (pre.map Slot.str ++ tail)) w := by
  induction pre with
  | nil => intro done fuel _; simp
  | cons a pre ih =>
    intro done fuel hgt
    have ha : a ≠ GT := fun h => hgt (by simp [h])
    have hpre : GT ∉ pre := fun h => hgt (by simp [h])
    have hstep := ih (done ++ [Slot.str a]) fuel hpre
    simp only [List.append_assoc, List.singleton_append, List.length_append,
      List.length_singleton] at hstep
    have hfuel : fuel + (a :: pre).length = (fuel + pre.length) + 1 := by simp; omega
    rw [hfuel]
    simp only [redirect_loop, List.map_cons, List.cons_append, slot_append_zero]
    simp only [slot, List.getD_cons_zero, ha, if_false]
    rw [hstep]
    simp [Nat.add_assoc, Nat.add_comm 1]

theorem argv_map_str (pre : List Str) (rest : List Slot) :
    argv (pre.map Slot.str ++ Slot.null :: rest) = some pre := by
  induction pre with
  | nil => simp [argv]
  | cons a pre ih => simp [argv, ih]

/-- What `redirect_command` does at the first marker when a path follows it and
the `open` succeeds. -/
theorem redirect_command_open_ok (sys : Sys) (w : World) (pre : List Str) (p : Str)
    (rest : List Slot) (hgt : GT ∉ pre) (hopen : sys.open_ok w.cwd p = true) :
    redirect_command sys (pre.map Slot.str ++ Slot.str GT :: Slot.str p :: rest) w
      = (Outcome.ret (pre.map Slot.str ++ Slot.null :: Slot.str p :: rest),
          { cwd := w.cwd, stdout := some p,
            trace := w.trace
              ++ [Event.sys_open (some p) [OFlag.O_RDWR, OFlag.O_CREAT, OFlag.O_TRUNC]
                    [ModeBit.S_IRUSR, ModeBit.S_IWUSR] true,
                  Event.dup2 true, Event.close true] }) := by
  have hskip := redirect_loop_skip sys w (Slot.str GT :: Slot.str p :: rest) pre []
    (rest.length + 3) hgt
  simp only [List.nil_append, List.length_nil, Nat.zero_add] at hskip
  have hlen : (pre.map Slot.str ++ Slot.str GT :: Slot.str p :: rest).length + 1
      = rest.length + 3 + pre.length := by
    simp; omega
  have s0 : slot (pre.map Slot.str ++ Slot.str GT :: Slot.str p :: rest) pre.length
      = Slot.str GT := by
    have := slot_append (pre.map Slot.str) (Slot.str GT :: Slot.str p :: rest) 0
    simpa [slot] using this
  have s1 : slot (pre.map Slot.str ++ Slot.str GT :: Slot.str p :: rest) (pre.length + 1)
      = Slot.str p := by
    have := slot_append (pre.map Slot.str) (Slot.str GT :: Slot.str p :: rest) 1
    simpa [slot] using this
  have hset : (pre.map Slot.str ++ Slot.str GT :: Slot.str p :: rest).set pre.length Slot.null
      = pre.map Slot.str ++ Slot.null :: Slot.str p :: rest := by
    simp
  rw [redirect_command, hlen, hskip]
  simp [redirect_loop, s0, s1, hopen, hset, emit]

/-! ## The executable search -/

theorem snprintf_fits (d c : Str) (hd : d ∈ paths) (hc : c.length ≤ 239) :
    snprintf MAX_COMMAND_SIZE d c = d ++ c := by
  have hlen : d.length ≤ 15 := by
    simp only [paths, List.mem_cons, List.mem_singleton, List.not_mem_nil, or_false] at hd
    rcases hd with rfl | rfl | rfl | rfl <;> simp
  unfold snprintf MAX_COMMAND_SIZE
  apply List.take_of_length_le
  simp
  omega

/-- The search loop returns the first entry on which `access` succeeds and logs
its `access` calls. -/
theorem search_loop_eq (sys : Sys) (c : Str) (ps : List Str) :
    ∀ w : World,
      search_loop sys c ps w
        = ((ps.find? (fun d => sys.access w.cwd (snprintf MAX_COMMAND_SIZE d c))).map
              (fun d => snprintf MAX_COMMAND_SIZE d c),
            { w with trace := w.trace ++ probes sys w.cwd c ps }) := by
  induction ps with
  | nil => intro w; simp [search_loop, probes]
  | cons p ps ih =>
    intro w
    by_cases h : sys.access w.cwd (snprintf MAX_COMMAND_SIZE p c) = true
    · simp [search_loop, probes, h, emit]
    · simp [search_loop, probes, h, ih, emit]

theorem find_fits (sys : Sys) (cwd c : Str) (ps : List Str)
    (h : ∀ d ∈ ps, snprintf MAX_COMMAND_SIZE d c = d ++ c) :
    (ps.find? (fun d => sys.access cwd (snprintf MAX_COMMAND_SIZE d c))).map
        (fun d => snprintf MAX_COMMAND_SIZE d c)
      = (ps.find? (fun d => sys.access cwd (d ++ c))).map (fun d => d ++ c) := by
  induction ps with
  | nil => simp
  | cons p ps ih =>
    have hp : snprintf MAX_COMMAND_SIZE p c = p ++ c := h p (by simp)
    have hps : ∀ d ∈ ps, snprintf MAX_COMMAND_SIZE d c = d ++ c :=
      fun d hd => h d (by simp [hd])
    by_cases ha : sys.access cwd (p ++ c) = true
    · simp [List.find?, hp, ha]
    · simp only [List.find?, hp, ha]
      exact ih hps

theorem exec_calls_append (a b : List Event) :
    exec_calls (a ++ b) = exec_calls a ++ exec_calls b := by
  induction a with
  | nil => simp [exec_calls]
  | cons e a ih => cases e <;> simp [exec_calls, ih]

theorem exec_calls_probes (sys : Sys) (cwd c : Str) (ps : List Str) :
    exec_calls (probes sys cwd c ps) = [] := by
  induction ps with
  | nil => simp [probes, exec_calls]
  | cons p ps ih =>
    by_cases h : sys.access cwd (snprintf MAX_COMMAND_SIZE p c) = true
    · simp [probes, h, exec_calls]
    · simp [probes, h, exec_calls, ih]

/-- When no entry of `paths` gives an executable file, the child reports one
error and returns to the caller of `execute_command`. -/
theorem locate_and_exec_not_found (sys : Sys) (token : List Slot) (c : Str) (w : World)
    (h0 : slot token 0 = Slot.str c)
    (hnone : ∀ d ∈ paths, sys.access w.cwd (snprintf MAX_COMMAND_SIZE d c) = false) :
    locate_and_exec sys token w
      = (Outcome.ret (),
          { w with trace := w.trace ++ probes sys w.cwd c paths ++ [Event.err] }) := by
  have hf : paths.find? (fun d => sys.access w.cwd (snprintf MAX_COMMAND_SIZE d c)) = none := by
    rw [List.find?_eq_none]
    intro d hd
    simp [hnone d hd]
  simp [locate_and_exec, h0, search_loop_eq, hf, err_handler, emit]

/-! ## The resolver at the marker -/

theorem slot_at_length (pre : List Str) (x : Slot) (tail : List Slot) :
    slot (pre.map Slot.str ++ x :: tail) pre.length = x := by
  have := slot_append (pre.map Slot.str) (x :: tail) 0
  simpa [slot] using this

theorem slot_after_length (pre : List Str) (x y : Slot) (tail : List Slot) :
    slot (pre.map Slot.str ++ x :: y :: tail) (pre.length + 1) = y := by
  have := slot_append (pre.map Slot.str) (x :: y :: tail) 1
  simpa [slot] using this

theorem set_at_length (pre : List Str) (x z : Slot) (tail : List Slot) :
    (pre.map Slot.str ++ x :: tail).set pre.length z = pre.map Slot.str ++ z :: tail := by
  simp

/-- The scan reaches the first slot after tokens that are not the marker. -/
theorem redirect_command_reach (sys : Sys) (w : World) (pre : List Str) (tail : List Slot)
    (hgt : GT ∉ pre) :
    redirect_command sys (pre.map Slot.str ++ tail) w
      = redirect_loop sys (tail.length + 1) pre.length (pre.map Slot.str ++ tail) w := by
  have hskip := redirect_loop_skip sys w tail pre [] (tail.length + 1) hgt
  simp only [List.nil_append, List.length_nil, Nat.zero_add] at hskip
  have hlen : (pre.map Slot.str ++ tail).length + 1 = tail.length + 1 + pre.length := by
    simp; omega
  rw [redirect_command, hlen, hskip]

/-- With no marker before the first sentinel nothing is opened and the array
is returned as it was. -/
theorem redirect_command_no_marker (sys : Sys) (w : World) (pre : List Str)
    (rest : List Slot) (hgt : GT ∉ pre) :
    redirect_command sys (pre.map Slot.str ++ Slot.null :: rest) w
      = (Outcome.ret (pre.map Slot.str ++ Slot.null :: rest), w) := by
  rw [redirect_command_reach sys w pre _ hgt]
  simp [redirect_loop, slot_at_length]

/-- At the first marker, when the `open` of the path after it fails. -/
theorem redirect_command_open_fails (sys : Sys) (w : World) (pre : List Str) (p : Str)
    (rest : List Slot) (hgt : GT ∉ pre) (hopen : sys.open_ok w.cwd p = false) :
    redirect_command sys (pre.map Slot.str ++ Slot.str GT :: Slot.str p :: rest) w
      = (Outcome.ret (pre.map Slot.str ++ Slot.null :: Slot.str p :: rest),
          { cwd := w.cwd, stdout := w.stdout,
            trace := w.trace
              ++ [Event.sys_open (some p) [OFlag.O_RDWR, OFlag.O_CREAT, OFlag.O_TRUNC]
                    [ModeBit.S_IRUSR, ModeBit.S_IWUSR] false,
                  Event.err, Event.dup2 false, Event.close false] }) := by
  rw [redirect_command_reach sys w pre _ hgt]
  simp [redirect_loop, slot_at_length, slot_after_length, hopen, emit, err_handler]

/-- At the first marker, when the slot after it holds `NULL`. -/
theorem redirect_command_null_path (sys : Sys) (w : World) (pre : List Str)
    (rest : List Slot) (hgt : GT ∉ pre) :
    redirect_command sys (pre.map Slot.str ++ Slot.str GT :: Slot.null :: rest) w
      = (Outcome.ret (pre.map Slot.str ++ Slot.null :: Slot.null :: rest),
          { cwd := w.cwd, stdout := w.stdout,
            trace := w.trace
              ++ [Event.sys_open none [OFlag.O_RDWR, OFlag.O_CREAT, OFlag.O_TRUNC]
                    [ModeBit.S_IRUSR, ModeBit.S_IWUSR] false,
                  Event.err, Event.dup2 false, Event.close false] }) := by
  rw [redirect_command_reach sys w pre _ hgt]
  simp [redirect_loop, slot_at_length, slot_after_length, emit, err_handler]

/-- The `execv` calls of the search-and-exec step: one, on the first path of
the search that `access` accepts, with the argument list; none when there is no
such path. -/
theorem locate_and_exec_calls (sys : Sys) (token : List Slot) (c : Str) (args : List Str)
    (w : World) (h0 : slot token 0 = Slot.str c) (hargs : argv token = some args) :
    exec_calls (locate_and_exec sys token w).2.trace
      = exec_calls w.trace
          ++ ((paths.find? (fun d => sys.access w.cwd (snprintf MAX_COMMAND_SIZE d c))).map
                (fun d => (snprintf MAX_COMMAND_SIZE d c, args))).toList := by
  have hs := search_loop_eq sys c paths w
  cases hfind : paths.find? (fun d => sys.access w.cwd (snprintf MAX_COMMAND_SIZE d c)) with
  | none =>
    rw [hfind] at hs
    simp [locate_and_exec, h0, hs, err_handler, emit, exec_calls_append,
      exec_calls_probes, exec_calls]
  | some d =>
    rw [hfind] at hs
    by_cases hx : sys.execv w.cwd (snprintf MAX_COMMAND_SIZE d c) args = true
    · simp [locate_and_exec, h0, hs, hargs, hx, emit, exec_calls_append,
        exec_calls_probes, exec_calls]
    · simp [locate_and_exec, h0, hs, hargs, hx, emit, exec_calls_append,
        exec_calls_probes, exec_calls]

/-! ## Fields and slots -/

theorem fields_eq_splitOnP (line : Str) :
    fields line = line.splitOnP (fun c => decide (c ∈ WHITESPACE)) := by
  induction line with
  | nil => simp [fields]
  | cons c cs ih =>
    rw [List.splitOnP_cons]
    by_cases hc : c ∈ WHITESPACE
    · simp [fields, hc, ih]
    · have hne := List.splitOnP_ne_nil (fun c => decide (c ∈ WHITESPACE)) cs
      simp only [fields, hc, if_false, decide_False, ih, Bool.false_eq_true]
      cases hsp : List.splitOnP (fun c => decide (c ∈ WHITESPACE)) cs with
      | nil => exact absurd hsp hne
      | cons f fs => simp [List.modifyHead]

theorem slot_map_slot_of (fs : List Str) (rest : List Slot) (k : Nat) (hk : k < fs.length) :
    slot (fs.map slot_of ++ rest) k = slot_of (fs.getD k []) := by
  induction fs generalizing k with
  | nil => simp at hk
  | cons f fs ih =>
    cases k with
    | zero => simp [slot]
    | succ k =>
      have := ih k (by simpa using hk)
      simpa [slot] using this

/-- Slot `k`, for `k` below the number of fields and below 11, holds the slot
of field `k`. -/
theorem slot_of_field (line : Str) (k : Nat) (hk : k < min (fields line).length 11) :
    slot (parsing_command line) k = slot_of ((fields line).getD k []) := by
  have hk1 : k < (fields line).length := lt_of_lt_of_le hk (min_le_left _ _)
  have hk2 : k < 11 := lt_of_lt_of_le hk (min_le_right _ _)
  rw [parsing_command_eq, slot_map_slot_of _ _ k (by simp; omega)]
  congr 1
  simp [List.getD_eq_getElem?_getD, List.getElem?_take, hk2]

theorem slot_of_eq (f : Str) :
    slot_of f = if f = [] then Slot.null else Slot.str (f.take 255) := by
  cases f with
  | nil => simp [slot_of, strndup, strlen]
  | cons c cs => simp [slot_of, strndup, strlen, MAX_COMMAND_SIZE]

theorem argv_some_cases (t : List Slot) (args : List Str) (h : argv t = some args) :
    (∃ rest, t = Slot.null :: rest ∧ args = [])
      ∨ ∃ a rest as, t = Slot.str a :: rest ∧ argv rest = some as ∧ args = a :: as := by
  cases args with
  | nil =>
    obtain ⟨rest, hr⟩ := argv_nil_inv t h
    exact Or.inl ⟨rest, hr, rfl⟩
  | cons a as =>
    obtain ⟨rest, hr, has⟩ := argv_cons_inv t a as h
    exact Or.inr ⟨a, rest, as, hr, has, rfl⟩

/-! ## Slots after the resolver -/

theorem slot_set_ne (token : List Slot) (i k : Nat) (x : Slot) (h : k ≠ i) :
    slot (token.set i x) k = slot token k := by
  simp [slot, List.getD_eq_getElem?_getD, List.getElem?_set_ne (Ne.symm h)]

theorem open_calls_append (a b : List Event) :
    open_calls (a ++ b) = open_calls a ++ open_calls b := by
  induction a with
  | nil => simp [open_calls]
  | cons e a ih => cases e <;> simp [open_calls, ih]

/-- Two markers among the tokens: the first is followed by a token. -/
theorem first_marker_split (toks : List Str) (h : 2 ≤ toks.count GT) :
    ∃ pre q post, toks = pre ++ GT :: q :: post ∧ GT ∉ pre := by
  induction toks with
  | nil => simp at h
  | cons a t ih =>
    by_cases ha : a = GT
    · subst ha
      cases t with
      | nil => simp at h
      | cons q post => exact ⟨[], q, post, rfl, by simp⟩
    · have hc : 2 ≤ t.count GT := by
        rw [List.count_cons_of_ne (Ne.symm ha)] at h
        exact h
      obtain ⟨pre, q, post, ht, hpre⟩ := ih hc
      refine ⟨a :: pre, q, post, by rw [ht]; rfl, ?_⟩
      intro hmem
      rcases List.mem_cons.mp hmem with h1 | h1
      · exact ha h1.symm
      · exact hpre h1

/-- At the first marker with a path after it: the array returned and the one
`open` made, whatever its result. -/
theorem redirect_command_at_marker (sys : Sys) (w : World) (pre : List Str) (p : Str)
    (rest : List Slot) (hgt : GT ∉ pre) :
    (redirect_command sys (pre.map Slot.str ++ Slot.str GT :: Slot.str p :: rest) w).1
        = Outcome.ret (pre.map Slot.str ++ Slot.null :: Slot.str p :: rest)
      ∧ open_calls
          (redirect_command sys (pre.map Slot.str ++ Slot.str GT :: Slot.str p :: rest) w).2.trace
        = open_calls w.trace ++ [(some p, sys.open_ok w.cwd p)] := by
  cases hopen : sys.open_ok w.cwd p with
  | true =>
    rw [redirect_command_open_ok sys w pre p rest hgt hopen]
    simp [open_calls_append, open_calls]
  | false =>
    rw [redirect_command_open_fails sys w pre p rest hgt hopen]
    simp [open_calls_append, open_calls]

/-! ## Traces only grow -/

theorem continues_refl (w : World) : Continues w w := ⟨[], by simp⟩

theorem continues_trans (a b c : World) (h1 : Continues a b) (h2 : Continues b c) :
    Continues a c := by
  obtain ⟨t1, h1⟩ := h1
  obtain ⟨t2, h2⟩ := h2
  exact ⟨t1 ++ t2, by rw [h2, h1, List.append_assoc]⟩

theorem continues_emit (e : Event) (w : World) : Continues w (emit e w) := ⟨[e], rfl⟩

theorem continues_emit_of (e : Event) (a b : World) (h : Continues a b) :
    Continues a (emit e b) :=
  continues_trans a b _ h (continues_emit e b)

theorem redirect_loop_continues (sys : Sys) (token : List Slot) (fuel : Nat) :
    ∀ (i : Nat) (w : World), Continues w (redirect_loop sys fuel i token w).2 := by
  induction fuel with
  | zero => intro i w; exact continues_refl w
  | succ fuel ih =>
    intro i w
    rw [redirect_loop]
    split
    · exact continues_refl w
    · exact continues_refl w
    · split
      · split
        · exact continues_refl w
        · simp [Continues, emit, err_handler]
        · split
          · simp [Continues, emit, err_handler]
          · simp [Continues, emit, err_handler]
      · exact ih (i + 1) w

theorem locate_and_exec_continues (sys : Sys) (token : List Slot) (w : World) :
    Continues w (locate_and_exec sys token w).2 := by
  unfold locate_and_exec
  split
  · rename_i c _
    rw [search_loop_eq]
    cases paths.find? (fun d => sys.access w.cwd (snprintf MAX_COMMAND_SIZE d c)) with
    | none => simp [Continues, emit, err_handler]
    | some d =>
      simp only [Option.map_some']
      split
      · split
        · simp [Continues, emit, err_handler]
        · simp [Continues, emit, err_handler]
      · simp [Continues, emit, err_handler]
  · exact continues_refl w
  · exact continues_refl w

theorem execute_command_continues (sys : Sys) (pid : Int) (token : List Slot) (w : World) :
    Continues w (execute_command sys pid token w).2 := by
  unfold execute_command
  split
  · simp [Continues, emit, err_handler]
  · split
    · have hr := redirect_loop_continues sys token (token.length + 1) 0 (emit (Event.fork pid) w)
      have hf := continues_emit (Event.fork pid) w
      unfold redirect_command
      split
      · rename_i token1 w1 heq
        rw [heq] at hr
        exact continues_trans _ _ _ (continues_trans _ _ _ hf hr)
          (locate_and_exec_continues sys token1 w1)
      · rename_i st w1 heq
        rw [heq] at hr
        exact continues_trans _ _ _ hf hr
      · rename_i p a w1 heq
        rw [heq] at hr
        exact continues_trans _ _ _ hf hr
      · rename_i w1 heq
        rw [heq] at hr
        exact continues_trans _ _ _ hf hr
    · simp [Continues, emit, err_handler]

theorem handle_built_in_continues (sys : Sys) (token : List Slot) (w : World) :
    Continues w (handle_built_in sys token w).2 := by
  unfold handle_built_in
  split
  · exact continues_refl w
  · exact continues_refl w
  · split
    · exact continues_refl w
    · split
      · split
        · exact continues_refl w
        · exact continues_emit _ w
        · split
          · exact continues_refl w
          · exact continues_emit _ w
          · split
            · simp [Continues, emit, err_handler]
            · simp [Continues, emit, err_handler]
      · exact continues_refl w

/-- Slot 0 holds a token exactly when the line starts with a character that is
not a delimiter. -/
theorem slot_zero_cases (line : Str) :
    (StartsWithToken line ∧ ∃ t, slot (parsing_command line) 0 = Slot.str t)
      ∨ (¬ StartsWithToken line ∧ slot (parsing_command line) 0 = Slot.null) := by
  rw [slot_zero]
  cases line with
  | nil =>
    right
    refine ⟨?_, by simp [strsep_scan, slot_of, strndup, strlen]⟩
    rintro ⟨c, cs, h, _⟩
    simp at h
  | cons c cs =>
    by_cases hc : c ∈ WHITESPACE
    · right
      refine ⟨?_, by simp [strsep_scan, hc, slot_of, strndup, strlen]⟩
      rintro ⟨c1, cs1, h, hc1⟩
      simp only [List.cons.injEq] at h
      exact hc1 (h.1 ▸ hc)
    · left
      refine ⟨⟨c, cs, rfl, hc⟩, ?_⟩
      simp [strsep_scan, hc, slot_of, strndup, strlen, MAX_COMMAND_SIZE]

/-- The iteration on a line whose slot 0 holds a token starts with the call of
`handle_built_in`. -/
theorem main_iteration_dispatched (sys : Sys) (pid : Int) (line : Str) (w : World) (t : Str)
    (h0 : slot (parsing_command line) 0 = Slot.str t) :
    Continues (emit Event.call_handle_built_in w) (main_iteration sys pid line w).2 := by
  have hb := handle_built_in_continues sys (parsing_command line)
    (emit Event.call_handle_built_in w)
  unfold main_iteration
  rw [h0]
  simp only
  split
  · rename_i r w1 heq
    rw [heq] at hb
    split
    · exact continues_trans _ _ _ (continues_emit_of Event.call_execute_command _ _ hb)
        (execute_command_continues sys pid _ _)
    · exact hb
  · rename_i st w1 heq
    rw [heq] at hb
    exact hb
  · rename_i p a w1 heq
    rw [heq] at hb
    exact hb
  · rename_i w1 heq
    rw [heq] at hb
    exact hb

/-! ## Tokens are pieces of the line -/

theorem joined_fields (line : Str) : Joined (fields line) line := by
  induction line with
  | nil => exact Joined.last []
  | cons c cs ih =>
    by_cases hc : c ∈ WHITESPACE
    · simp only [fields, hc, if_true]
      exact Joined.cons [] c (fields cs) cs hc ih
    · simp only [fields, hc, if_false]
      revert ih
      generalize fields cs = L
      intro ih
      cases ih with
      | last f => exact Joined.last _
      | cons f d fs r hd hj => exact Joined.cons (c :: f) d fs r hd hj

theorem fields_no_delimiter (line : Str) :
    ∀ f ∈ fields line, ∀ c ∈ f, c ∉ WHITESPACE := by
  induction line with
  | nil => simp [fields]
  | cons c cs ih =>
    by_cases hc : c ∈ WHITESPACE
    · intro f hf
      simp only [fields, hc, if_true, List.mem_cons] at hf
      rcases hf with rfl | hf
      · simp
      · exact ih f hf
    · intro f hf
      simp only [fields, hc, if_false] at hf
      cases hL : fields cs with
      | nil =>
        rw [hL] at hf
        simp only [List.mem_singleton] at hf
        subst hf
        intro x hx
        simp only [List.mem_singleton] at hx
        subst hx
        exact hc
      | cons f0 fs =>
        rw [hL] at hf ih
        simp only [List.mem_cons] at hf
        rcases hf with rfl | hf
        · intro x hx
          rcases List.mem_cons.mp hx with rfl | hx
          · exact hc
          · exact ih f0 (by simp) x hx
        · exact ih f (by simp [hf])

theorem occur_prepend (ts : List Str) (x r : Str) (h : occur_in_order ts r) :
    occur_in_order ts (x ++ r) := by
  cases ts with
  | nil => trivial
  | cons t ts =>
    obtain ⟨a, rest, hr, ho⟩ := h
    exact ⟨x ++ a, rest, by rw [hr]; simp, ho⟩

theorem occur_infix (ts : List Str) :
    ∀ line, occur_in_order ts line → ∀ t ∈ ts, t <:+: line := by
  induction ts with
  | nil => intro line _ t ht; simp at ht
  | cons t0 ts ih =>
    intro line h t ht
    obtain ⟨a, rest, hr, ho⟩ := h
    rcases List.mem_cons.mp ht with rfl | hmem
    · exact ⟨a, rest, hr.symm⟩
    · obtain ⟨u, v, huv⟩ := ih rest ho t hmem
      exact ⟨a ++ t0 ++ u, v, by rw [hr, ← huv]; simp⟩

theorem str_tokens_append (a b : List Slot) :
    str_tokens (a ++ b) = str_tokens a ++ str_tokens b := by
  induction a with
  | nil => simp [str_tokens]
  | cons x a ih => cases x <;> simp [str_tokens, ih]

theorem str_tokens_replicate (n : Nat) : str_tokens (List.replicate n Slot.uninit) = [] := by
  induction n with
  | zero => simp [str_tokens]
  | succ n ih => simp [List.replicate_succ, str_tokens, ih]

theorem str_tokens_slot_of (f : Str) (L : List Slot) :
    str_tokens (slot_of f :: L)
      = if f = [] then str_tokens L else f.take 255 :: str_tokens L := by
  rw [slot_of_eq]
  by_cases hf : f = []
  · simp [hf, str_tokens]
  · simp [hf, str_tokens]

theorem occur_of_joined (fs : List Str) (line : Str) (h : Joined fs line) :
    ∀ n, occur_in_order (str_tokens ((fs.take n).map slot_of)) line := by
  induction h with
  | last f =>
    intro n
    cases n with
    | zero => simp [str_tokens, occur_in_order]
    | succ n =>
      simp only [List.take_succ_cons, List.take_nil, List.map_cons, List.map_nil,
        str_tokens_slot_of]
      by_cases hf : f = []
      · simp [hf, str_tokens, occur_in_order]
      · simp only [hf, if_false, str_tokens]
        exact ⟨[], f.drop 255, by simp, trivial⟩
  | cons f d fs r hd hj ih =>
    intro n
    cases n with
    | zero => simp [str_tokens, occur_in_order]
    | succ n =>
      simp only [List.take_succ_cons, List.map_cons, str_tokens_slot_of]
      by_cases hf : f = []
      · simp only [hf, if_true, List.nil_append]
        exact occur_prepend _ [d] r (ih n)
      · simp only [hf, if_false]
        refine ⟨[], f.drop 255 ++ d :: r,
          by rw [List.nil_append, ← List.append_assoc, List.take_append_drop], ?_⟩
        have := occur_prepend _ (f.drop 255 ++ [d]) r (ih n)
        simpa using this

theorem mem_str_tokens_of_slot (block : List Slot) :
    ∀ (k : Nat) (s : Str), slot block k = Slot.str s → s ∈ str_tokens block := by
  induction block with
  | nil => intro k s h; simp [slot] at h
  | cons x xs ih =>
    intro k s h
    cases k with
    | zero =>
      simp only [slot, List.getD_cons_zero] at h
      subst h
      simp [str_tokens]
    | succ k =>
      have hs : s ∈ str_tokens xs := ih k s (by simpa [slot] using h)
      cases x <;> simp [str_tokens, hs]

theorem str_tokens_of_fields (L : List Str) (s : Str)
    (h : s ∈ str_tokens (L.map slot_of)) : ∃ f ∈ L, f ≠ [] ∧ s = f.take 255 := by
  induction L with
  | nil => simp [str_tokens] at h
  | cons f L ih =>
    rw [List.map_cons, str_tokens_slot_of] at h
    by_cases hf : f = []
    · simp only [hf, if_true] at h
      obtain ⟨g, hg, hne, hs⟩ := ih h
      exact ⟨g, by simp [hg], hne, hs⟩
    · simp only [hf, if_false, List.mem_cons] at h
      rcases h with rfl | h
      · exact ⟨f, by simp, hf, rfl⟩
      · obtain ⟨g, hg, hne, hs⟩ := ih h
        exact ⟨g, by simp [hg], hne, hs⟩

/-- The strings in the block are the non-empty ones among the first 11 fields,
each cut to 255 characters. -/
theorem str_tokens_parsing_command (line : Str) :
    str_tokens (parsing_command line) = str_tokens (((fields line).take 11).map slot_of) := by
  rw [parsing_command_eq, str_tokens_append, str_tokens_replicate, List.append_nil]

/-! ## Claims -/

/-- C1. Tokenizing round trip: for 1 to 11 words (non-empty, free of space, tab
and newline, at most 255 characters each) joined by single spaces,
`parsing_command` stores exactly those words, in order, in slots `0..n-1`, and
none of those slots holds the sentinel. -/
theorem C1_tokenize_round_trip (words : List Str) (h1 : 1 ≤ words.length)
    (h11 : words.length ≤ 11) (hw : ∀ w ∈ words, IsWord w) :
    (parsing_command (unwords words)).take words.length = words.map Slot.str
      ∧ ∀ k, k < words.length →
          slot (parsing_command (unwords words)) k = Slot.str (words.getD k [])
            ∧ slot (parsing_command (unwords words)) k ≠ Slot.null := by
  have hne : words ≠ [] := by
    intro h; simp [h] at h1
  have ht : words.take 11 = words := List.take_of_length_le h11
  have hpc := parsing_command_unwords words hne hw
  rw [ht] at hpc
  refine ⟨?_, ?_⟩
  · rw [hpc, List.take_left' (by simp)]
  · intro k hk
    rw [hpc, slot_map_str words _ k hk]
    simp

/-- C1, witness: `"ls -l /tmp"` yields `["ls", "-l", "/tmp"]`. -/
theorem C1_tokenize_round_trip_witness :
    (parsing_command "ls -l /tmp".toList).take 3
        = [Slot.str "ls".toList, Slot.str "-l".toList, Slot.str "/tmp".toList]
      ∧ ∀ k, k < 3 →
          slot (parsing_command "ls -l /tmp".toList) k
              = Slot.str (["ls".toList, "-l".toList, "/tmp".toList].getD k [])
            ∧ slot (parsing_command "ls -l /tmp".toList) k ≠ Slot.null :=
  C1_tokenize_round_trip ["ls".toList, "-l".toList, "/tmp".toList] (by decide) (by decide)
    (by simp [IsWord, MAX_COMMAND_SIZE, WHITESPACE])

/-- C2. A raw line that is empty or made only of spaces, tabs and newlines has
the sentinel in slot 0, and one iteration of the main loop on it returns with
the world exactly as it was: the trace gains no call of `handle_built_in` or
`execute_command`, no error, no `chdir`, no `fork`; the loop then goes on with
the next line. -/
theorem C2_blank_line_ignored (sys : Sys) (interactive : Bool) (pid : Int) (line : Str)
    (rest : List (Str × Int)) (w : World) (h : ∀ c ∈ line, c ∈ WHITESPACE) :
    slot (parsing_command line) 0 = Slot.null
      ∧ main_iteration sys pid line w = (Outcome.ret (), w)
      ∧ main_loop sys interactive ((line, pid) :: rest) w
          = main_loop sys interactive rest { w with trace := w.trace ++ prompts interactive } := by
  have h0 : slot (parsing_command line) 0 = Slot.null := by
    rw [slot_zero, first_field_blank line h]
    simp [slot_of, strndup, strlen]
  have hit : ∀ w1 : World, main_iteration sys pid line w1 = (Outcome.ret (), w1) := by
    intro w1
    simp [main_iteration, h0]
  exact ⟨h0, hit w, by simp [main_loop, hit, prompt_world]⟩

/-- C2, witness: the line of two spaces, a tab and a newline. -/
theorem C2_blank_line_ignored_witness :
    slot (parsing_command "  \t\n".toList) 0 = Slot.null
      ∧ main_iteration sys_demo 0 "  \t\n".toList world0 = (Outcome.ret (), world0)
      ∧ main_loop sys_demo false [("  \t\n".toList, 0)] world0
          = main_loop sys_demo false [] { world0 with trace := world0.trace ++ prompts false } :=
  C2_blank_line_ignored sys_demo false 0 "  \t\n".toList [] world0
    (by simp [WHITESPACE])

/-- C3. When slot 0 of the tokenized line is exactly `exit` or `quit`, whatever
the other slots hold, processing the line ends the interpreter through
`exit(0)`; the trace gains only the mark of the call of `handle_built_in`: no
error, no `chdir`, no `fork`; working directory and standard output are
untouched, and the read loop processes no later line. -/
theorem C3_exit_quit_terminates (sys : Sys) (interactive : Bool) (pid : Int) (line : Str)
    (rest : List (Str × Int)) (w : World)
    (h : slot (parsing_command line) 0 = Slot.str ['e', 'x', 'i', 't']
          ∨ slot (parsing_command line) 0 = Slot.str ['q', 'u', 'i', 't']) :
    main_iteration sys pid line w
        = (Outcome.terminated 0, { w with trace := w.trace ++ [Event.call_handle_built_in] })
      ∧ main_loop sys interactive ((line, pid) :: rest) w
        = (Outcome.terminated 0,
            { w with trace := w.trace ++ prompts interactive ++ [Event.call_handle_built_in] }) := by
  have hit : ∀ w1 : World, main_iteration sys pid line w1
      = (Outcome.terminated 0, { w1 with trace := w1.trace ++ [Event.call_handle_built_in] }) := by
    intro w1
    rcases h with h | h <;> simp [main_iteration, handle_built_in, h, emit]
  exact ⟨hit w, by simp [main_loop, hit, prompt_world]⟩

/-- C3, witness: `exit > out.txt` followed by another line. -/
theorem C3_exit_quit_terminates_witness :
    main_iteration sys_demo 0 "exit > out.txt\n".toList world0
        = (Outcome.terminated 0,
            { world0 with trace := world0.trace ++ [Event.call_handle_built_in] })
      ∧ main_loop sys_demo true [("exit > out.txt\n".toList, 0), ("cd /tmp\n".toList, 0)] world0
        = (Outcome.terminated 0,
            { world0 with trace := world0.trace ++ prompts true ++ [Event.call_handle_built_in] }) :=
  C3_exit_quit_terminates sys_demo true 0 "exit > out.txt\n".toList [("cd /tmp\n".toList, 0)]
    world0 (Or.inl (by decide))

/-- What the dispatcher does when the argument list of the tokenized line (the
slots up to the first sentinel) is `cd` followed by one token `p`:
`handle_built_in` returns 1 and `chdir(p)` is attempted once; when it succeeds
the working directory becomes the directory it resolved `p` to and no error is
reported; when it fails one error is reported and the working directory is
unchanged. -/
theorem cd_one_argument_terminated (sys : Sys) (pid : Int) (line p : Str) (w : World)
    (h : argv (parsing_command line) = some [CD, p]) :
    (handle_built_in sys (parsing_command line) w).1 = Outcome.ret 1
      ∧ (∀ d, sys.chdir w.cwd p = some d →
          main_iteration sys pid line w
            = (Outcome.ret (),
                { cwd := d, stdout := w.stdout,
                  trace := w.trace ++ [Event.call_handle_built_in, Event.chdir p true] }))
      ∧ (sys.chdir w.cwd p = none →
          main_iteration sys pid line w
            = (Outcome.ret (),
                { cwd := w.cwd, stdout := w.stdout,
                  trace := w.trace
                    ++ [Event.call_handle_built_in, Event.chdir p false, Event.err] })) := by
  obtain ⟨r0, ht0, h0⟩ := argv_cons_inv _ _ _ h
  obtain ⟨r1, ht1, h1⟩ := argv_cons_inv _ _ _ h0
  obtain ⟨r2, ht2⟩ := argv_nil_inv _ h1
  subst ht2; subst ht1
  have s0 : slot (parsing_command line) 0 = Slot.str CD := by rw [ht0]; rfl
  have s1 : slot (parsing_command line) 1 = Slot.str p := by rw [ht0]; rfl
  have s2 : slot (parsing_command line) 2 = Slot.null := by rw [ht0]; rfl
  refine ⟨?_, ?_, ?_⟩
  · cases hc : sys.chdir w.cwd p <;> simp [handle_built_in, s0, s1, s2, CD, hc]
  · intro d hd
    simp [main_iteration, handle_built_in, s0, s1, s2, CD, hd, emit]
  · intro hn
    simp [main_iteration, handle_built_in, s0, s1, s2, CD, hn, emit, err_handler]

/-- A line made of `cd`, one delimiter, one word `p` and one closing delimiter
has the argument list `cd`, `p`. -/
theorem argv_cd_line (p : Str) (d1 d2 : Char) (hp : IsWord p) (h1 : d1 ∈ WHITESPACE)
    (h2 : d2 ∈ WHITESPACE) :
    argv (parsing_command (CD ++ d1 :: (p ++ [d2]))) = some [CD, p] := by
  have hcd : ∀ c ∈ CD, c ∉ WHITESPACE := by decide
  have hf : fields (CD ++ d1 :: (p ++ [d2])) = [CD, p, []] := by
    rw [fields_word_delim CD _ d1 hcd h1, fields_word_delim p [] d2 hp.2.2 h2]
    simp [fields]
  have hs : slot_of CD = Slot.str CD :=
    slot_of_word CD (by simp [IsWord, CD, MAX_COMMAND_SIZE, WHITESPACE])
  have hn : slot_of [] = Slot.null := by simp [slot_of_eq]
  rw [parsing_command_eq, hf]
  show argv ([slot_of CD, slot_of p, slot_of []] ++ _) = _
  rw [hs, slot_of_word p hp, hn]
  rfl

/-- C4, evaluated where it fails.  The line `cd`, two spaces, `/tmp`, newline
has the tokens `cd` and `/tmp`, and `chdir` would accept `/tmp`; the run of two
spaces leaves the sentinel in slot 1, so the arity test of line 123 reports an
error and `chdir` is not called.  The line `cd /tmp` without a closing newline
has the same two tokens; slot 2 is unwritten and the arity test reads it. -/
theorem C4_cd_one_token_not_honoured :
    line_tokens "cd  /tmp\n".toList = [CD, "/tmp".toList]
      ∧ sys_demo.chdir world0.cwd "/tmp".toList = some "/tmp".toList
      ∧ parsing_command "cd  /tmp\n".toList
          = [Slot.str CD, Slot.null, Slot.str "/tmp".toList, Slot.null]
              ++ List.replicate 28 Slot.uninit
      ∧ main_iteration sys_demo 0 "cd  /tmp\n".toList world0
          = (Outcome.ret (),
              { cwd := world0.cwd, stdout := none,
                trace := [Event.call_handle_built_in, Event.err] })
      ∧ line_tokens "cd /tmp".toList = [CD, "/tmp".toList]
      ∧ parsing_command "cd /tmp".toList
          = [Slot.str CD, Slot.str "/tmp".toList] ++ List.replicate 30 Slot.uninit
      ∧ (main_iteration sys_demo 0 "cd /tmp".toList world0).1 = Outcome.undef := by
  decide

/-- C5, evaluated where it fails.  The line `cd /tmp`, two spaces, `x`, newline
has two tokens after `cd`; the run of two spaces leaves the sentinel in slot 2,
so the arity test of line 123 passes, `chdir("/tmp")` is called and succeeds, no
error is reported and the working directory changes.  The bare line `cd`
without a closing newline has no token after `cd`; slot 1 is unwritten and the
arity test reads it. -/
theorem C5_cd_wrong_arity_not_rejected :
    line_tokens "cd /tmp  x\n".toList = [CD, "/tmp".toList, "x".toList]
      ∧ parsing_command "cd /tmp  x\n".toList
          = [Slot.str CD, Slot.str "/tmp".toList, Slot.null, Slot.str "x".toList, Slot.null]
              ++ List.replicate 27 Slot.uninit
      ∧ main_iteration sys_demo 0 "cd /tmp  x\n".toList world0
          = (Outcome.ret (),
              { cwd := "/tmp".toList, stdout := none,
                trace := [Event.call_handle_built_in, Event.chdir "/tmp".toList true] })
      ∧ line_tokens "cd".toList = [CD]
      ∧ parsing_command "cd".toList = [Slot.str CD] ++ List.replicate 31 Slot.uninit
      ∧ (main_iteration sys_demo 0 "cd".toList world0).1 = Outcome.undef := by
  decide

/-- C6. Redirection stripping: when the tokens at indices `0..i-1` (`i >= 1`)
are strings other than `>`, slot `i` holds `>`, slot `i+1` holds a path `p` and
the `open` of `p` succeeds, `redirect_command` opens `p` with `O_RDWR`, `O_CREAT`,
`O_TRUNC` and mode `S_IRUSR | S_IWUSR`, binds standard output to `p`, and leaves an
array whose argument list, as `execv` reads it, is exactly the tokens at indices
`0..i-1`: neither `>` nor `p` is in it. -/
theorem C6_redirection_stripping (sys : Sys) (w : World) (token : List Slot)
    (pre : List Str) (p : Str) (rest : List Slot)
    (hi : 1 ≤ pre.length) (hgt : GT ∉ pre)
    (htoken : token = pre.map Slot.str ++ Slot.str GT :: Slot.str p :: rest)
    (hopen : sys.open_ok w.cwd p = true) :
    ∃ token1,
      redirect_command sys token w
          = (Outcome.ret token1,
              { cwd := w.cwd, stdout := some p,
                trace := w.trace
                  ++ [Event.sys_open (some p) [OFlag.O_RDWR, OFlag.O_CREAT, OFlag.O_TRUNC]
                        [ModeBit.S_IRUSR, ModeBit.S_IWUSR] true,
                      Event.dup2 true, Event.close true] })
        ∧ argv token1 = some pre
        ∧ token1.take pre.length = token.take pre.length := by
  have _ := hi
  subst htoken
  refine ⟨pre.map Slot.str ++ Slot.null :: Slot.str p :: rest,
    redirect_command_open_ok sys w pre p rest hgt hopen, argv_map_str pre _, ?_⟩
  rw [List.take_left' (by simp), List.take_left' (by simp)]

/-- C6, witness: tokenizing and resolving `echo hi > out.txt` gives the
argument list `["echo", "hi"]` with sink `out.txt`. -/
theorem C6_redirection_stripping_witness :
    ∃ token1,
      redirect_command sys_demo (parsing_command "echo hi > out.txt".toList) world0
          = (Outcome.ret token1,
              { cwd := world0.cwd, stdout := some "out.txt".toList,
                trace := world0.trace
                  ++ [Event.sys_open (some "out.txt".toList)
                        [OFlag.O_RDWR, OFlag.O_CREAT, OFlag.O_TRUNC]
                        [ModeBit.S_IRUSR, ModeBit.S_IWUSR] true,
                      Event.dup2 true, Event.close true] })
        ∧ argv token1 = some ["echo".toList, "hi".toList]
        ∧ token1.take ["echo".toList, "hi".toList].length
            = (parsing_command "echo hi > out.txt".toList).take
                ["echo".toList, "hi".toList].length :=
  C6_redirection_stripping sys_demo world0 (parsing_command "echo hi > out.txt".toList)
    ["echo".toList, "hi".toList] "out.txt".toList (List.replicate 28 Slot.uninit)
    (by decide) (by decide) (by decide) rfl

set_option maxRecDepth 100000 in
/-- C7, as the claim states it, fails on a long name: for the 250-character
name `long_name`, `"/bin/" ++ long_name` has 255 characters and `snprintf` keeps
254 of them, so the search resolves to `/bin/` followed by 249 times `a`, and the
child execs that file, although no entry of `paths` followed by `long_name` is
an executable file. -/
theorem C7_long_name_counterexample :
    (search_loop sys_long long_name paths world0).1
        = some (['/', 'b', 'i', 'n', '/'] ++ List.replicate 249 'a')
      ∧ (∀ d ∈ paths, sys_long.access world0.cwd (d ++ long_name) = false)
      ∧ (main_iteration sys_long 0 (long_name ++ ['\n']) world0).1
        = Outcome.replaced (['/', 'b', 'i', 'n', '/'] ++ List.replicate 249 'a') [long_name] := by
  decide

/-- C7, amended. Executable search order, for a command name `c` of at most 239
characters (every entry of `paths` followed by `c` then fits the 254 characters
`snprintf` keeps): for every `access` oracle the search resolves `c` to `d ++ c`
for the first `d`, in the order `/bin/`, `/usr/bin/`, `/usr/local/bin/`, `./`,
for which `access (d ++ c)` succeeds; the child calls `execv` on that path, with
the argument list, exactly when such a `d` exists, and calls it on nothing
otherwise; a name executable under `/bin/` resolves to `/bin/ ++ c` whatever
else is executable. -/
theorem C7_search_order (sys : Sys) (w : World) (token : List Slot) (c : Str)
    (args : List Str) (hlen : c.length ≤ 239) (h0 : slot token 0 = Slot.str c)
    (hargs : argv token = some args) :
    (search_loop sys c paths w).1
        = (paths.find? (fun d => sys.access w.cwd (d ++ c))).map (fun d => d ++ c)
      ∧ exec_calls (locate_and_exec sys token w).2.trace
        = exec_calls w.trace
            ++ ((paths.find? (fun d => sys.access w.cwd (d ++ c))).map
                  (fun d => (d ++ c, args))).toList
      ∧ (sys.access w.cwd (['/', 'b', 'i', 'n', '/'] ++ c) = true →
          (search_loop sys c paths w).1 = some (['/', 'b', 'i', 'n', '/'] ++ c)) := by
  have hfit : ∀ d ∈ paths, snprintf MAX_COMMAND_SIZE d c = d ++ c :=
    fun d hd => snprintf_fits d c hd hlen
  have hsearch : (search_loop sys c paths w).1
      = (paths.find? (fun d => sys.access w.cwd (d ++ c))).map (fun d => d ++ c) := by
    rw [search_loop_eq, find_fits sys w.cwd c paths hfit]
  refine ⟨hsearch, ?_, ?_⟩
  · have hs := search_loop_eq sys c paths w
    rw [find_fits sys w.cwd c paths hfit] at hs
    cases hfind : paths.find? (fun d => sys.access w.cwd (d ++ c)) with
    | none =>
      rw [hfind] at hs
      simp [locate_and_exec, h0, hs, err_handler, emit, exec_calls_append,
        exec_calls_probes, exec_calls]
    | some d =>
      rw [hfind] at hs
      by_cases hx : sys.execv w.cwd (d ++ c) args = true
      · simp [locate_and_exec, h0, hs, hargs, hx, emit, exec_calls_append,
          exec_calls_probes, exec_calls]
      · simp [locate_and_exec, h0, hs, hargs, hx, emit, exec_calls_append,
          exec_calls_probes, exec_calls]
  · intro hbin
    have hf : paths.find? (fun d => sys.access w.cwd (d ++ c))
        = some ['/', 'b', 'i', 'n', '/'] := by
      unfold paths
      exact List.find?_cons_of_pos _ hbin
    rw [hsearch, hf]
    rfl

/-- C7, witness: `ls`, executable under both `/bin/` and `./`, resolves to
`/bin/ls`. -/
theorem C7_search_order_witness :
    (search_loop sys_demo "ls".toList paths world0).1
        = (paths.find? (fun d => sys_demo.access world0.cwd (d ++ "ls".toList))).map
            (fun d => d ++ "ls".toList)
      ∧ exec_calls (locate_and_exec sys_demo (parsing_command "ls -l\n".toList) world0).2.trace
        = exec_calls world0.trace
            ++ ((paths.find? (fun d => sys_demo.access world0.cwd (d ++ "ls".toList))).map
                  (fun d => (d ++ "ls".toList, ["ls".toList, "-l".toList]))).toList
      ∧ (sys_demo.access world0.cwd (['/', 'b', 'i', 'n', '/'] ++ "ls".toList) = true →
          (search_loop sys_demo "ls".toList paths world0).1
            = some (['/', 'b', 'i', 'n', '/'] ++ "ls".toList)) :=
  C7_search_order sys_demo world0 (parsing_command "ls -l\n".toList) "ls".toList
    ["ls".toList, "-l".toList] (by decide) (by decide) (by decide)

/-- C8, evaluated at `definitelynotarealcommand`: in the child (`fork` returned
0) `execute_command` reports one error and returns to its caller; the child's
read loop then processes the next line, `cd /tmp`, and changes the child's
working directory, before it ends at the end of the input. -/
theorem C8_child_returns_to_read_loop :
    execute_command sys_demo 0 (parsing_command "definitelynotarealcommand\n".toList) world0
        = (Outcome.ret (),
            { world0 with trace :=
                [Event.fork 0,
                 Event.access "/bin/definitelynotarealcommand".toList false,
                 Event.access "/usr/bin/definitelynotarealcommand".toList false,
                 Event.access "/usr/local/bin/definitelynotarealcommand".toList false,
                 Event.access "./definitelynotarealcommand".toList false,
                 Event.err] })
      ∧ main_loop sys_demo false
            [("definitelynotarealcommand\n".toList, 0), ("cd /tmp\n".toList, 0)] world0
        = (Outcome.terminated 0,
            { cwd := "/tmp".toList, stdout := none,
              trace :=
                [Event.call_handle_built_in, Event.call_execute_command, Event.fork 0,
                 Event.access "/bin/definitelynotarealcommand".toList false,
                 Event.access "/usr/bin/definitelynotarealcommand".toList false,
                 Event.access "/usr/local/bin/definitelynotarealcommand".toList false,
                 Event.access "./definitelynotarealcommand".toList false,
                 Event.err,
                 Event.call_handle_built_in, Event.chdir "/tmp".toList true] }) := by
  decide

/-- The cap of the tokenizer: for every raw line at most 11 slots are written
and every slot from index 11 on is left unwritten; for more than 11 words joined
by single spaces the block holds the first 11 words, in order, in slots `0..10`,
and the 21 slots after them are unwritten. -/
theorem token_cap_single_spaces (line : Str) (words : List Str) (h11 : 11 < words.length)
    (hw : ∀ w ∈ words, IsWord w) :
    ((parsing_command line).filter (fun s => decide (s ≠ Slot.uninit))).length ≤ 11
      ∧ (∀ k, 11 ≤ k → slot (parsing_command line) k = Slot.uninit)
      ∧ parsing_command (unwords words)
          = (words.take 11).map Slot.str ++ List.replicate 21 Slot.uninit := by
  refine ⟨?_, ?_, ?_⟩
  · rw [parsing_command_eq, List.filter_append]
    have h1 : (List.filter (fun s => decide (s ≠ Slot.uninit))
        (List.replicate (32 - ((fields line).take 11).length) Slot.uninit)) = [] := by
      rw [List.filter_eq_nil_iff]
      intro a ha
      simp [List.eq_of_mem_replicate ha]
    rw [h1, List.append_nil]
    refine le_trans (List.length_filter_le _ _) ?_
    simp
  · intro k hk
    rw [parsing_command_eq]
    have hlen : (((fields line).take 11).map slot_of).length ≤ k := by
      simp; omega
    simp only [slot, List.getD_eq_getElem?_getD, List.getElem?_append_right hlen,
      List.getElem?_replicate]
    split <;> rfl
  · have hne : words ≠ [] := by
      intro h; simp [h] at h11
    rw [parsing_command_unwords words hne hw]
    have : (words.take 11).length = 11 := by
      simp; omega
    rw [this]

/-- C9, evaluated where it fails.  The line `a`, two spaces, `b c d e f g h i j
k l`, newline has the 12 tokens `a` to `l`.  The empty field of the run of two
spaces takes slot 1, so the 11 slots written hold `a`, the sentinel, and `b` to
`j`: the strings kept are the first 10 tokens, and the 11th token `k` is dropped
with `l`. -/
theorem C9_gap_counts_against_cap :
    line_tokens "a  b c d e f g h i j k l\n".toList
        = ["a", "b", "c", "d", "e", "f", "g", "h", "i", "j", "k", "l"].map String.toList
      ∧ parsing_command "a  b c d e f g h i j k l\n".toList
        = [Slot.str "a".toList, Slot.null, Slot.str "b".toList, Slot.str "c".toList,
           Slot.str "d".toList, Slot.str "e".toList, Slot.str "f".toList,
           Slot.str "g".toList, Slot.str "h".toList, Slot.str "i".toList,
           Slot.str "j".toList] ++ List.replicate 21 Slot.uninit
      ∧ str_tokens (parsing_command "a  b c d e f g h i j k l\n".toList)
        = ["a", "b", "c", "d", "e", "f", "g", "h", "i", "j"].map String.toList := by
  decide

/-- C10, evaluated at `ls`, two spaces, `-l`: the run of two spaces leaves the
sentinel in slot 1 and `-l` in slot 2, so the argument list read up to the
first sentinel is `["ls"]`, while with a single space slot 1 holds `-l` and the
argument list is `["ls", "-l"]`. -/
theorem C10_run_of_delimiters_leaves_gap :
    parsing_command "ls  -l".toList
        = [Slot.str "ls".toList, Slot.null, Slot.str "-l".toList]
            ++ List.replicate 29 Slot.uninit
      ∧ parsing_command "ls -l".toList
        = [Slot.str "ls".toList, Slot.str "-l".toList] ++ List.replicate 30 Slot.uninit
      ∧ argv (parsing_command "ls  -l\n".toList) = some ["ls".toList]
      ∧ argv (parsing_command "ls -l\n".toList) = some ["ls".toList, "-l".toList] := by
  decide

/-- C11. Redirection open failure: when the tokens `c :: args` at indices
`0..i-1` are not the marker, slot `i` holds `>`, and the destination cannot be
opened (slot `i+1` holds `NULL`, or a path on which `open` fails),
`redirect_command` reports exactly one error, leaves standard output as it was
and still stores `NULL` over the marker; `execute_command` in the child then
goes on with the search for `c` and calls `execv`, on the first path `access`
accepts, with exactly the arguments `c :: args`. -/
theorem C11_open_failure_not_aborted (sys : Sys) (w : World) (c : Str) (args : List Str)
    (nxt : Slot) (rest : List Slot) (hgt : GT ∉ c :: args)
    (hfail : nxt = Slot.null ∨ ∃ p, nxt = Slot.str p ∧ sys.open_ok w.cwd p = false) :
    redirect_command sys ((c :: args).map Slot.str ++ Slot.str GT :: nxt :: rest) w
        = (Outcome.ret ((c :: args).map Slot.str ++ Slot.null :: nxt :: rest),
            { cwd := w.cwd, stdout := w.stdout,
              trace := w.trace
                ++ [Event.sys_open (slot_str nxt) [OFlag.O_RDWR, OFlag.O_CREAT, OFlag.O_TRUNC]
                      [ModeBit.S_IRUSR, ModeBit.S_IWUSR] false,
                    Event.err, Event.dup2 false, Event.close false] })
      ∧ argv ((c :: args).map Slot.str ++ Slot.null :: nxt :: rest) = some (c :: args)
      ∧ execute_command sys 0 ((c :: args).map Slot.str ++ Slot.str GT :: nxt :: rest) w
        = locate_and_exec sys ((c :: args).map Slot.str ++ Slot.null :: nxt :: rest)
            { cwd := w.cwd, stdout := w.stdout,
              trace := w.trace
                ++ [Event.fork 0,
                    Event.sys_open (slot_str nxt) [OFlag.O_RDWR, OFlag.O_CREAT, OFlag.O_TRUNC]
                      [ModeBit.S_IRUSR, ModeBit.S_IWUSR] false,
                    Event.err, Event.dup2 false, Event.close false] }
      ∧ exec_calls
          (execute_command sys 0 ((c :: args).map Slot.str ++ Slot.str GT :: nxt :: rest) w).2.trace
        = exec_calls w.trace
            ++ ((paths.find? (fun d => sys.access w.cwd (snprintf MAX_COMMAND_SIZE d c))).map
                  (fun d => (snprintf MAX_COMMAND_SIZE d c, c :: args))).toList := by
  have hred : ∀ w1 : World, w1.cwd = w.cwd →
      redirect_command sys ((c :: args).map Slot.str ++ Slot.str GT :: nxt :: rest) w1
        = (Outcome.ret ((c :: args).map Slot.str ++ Slot.null :: nxt :: rest),
            { cwd := w1.cwd, stdout := w1.stdout,
              trace := w1.trace
                ++ [Event.sys_open (slot_str nxt) [OFlag.O_RDWR, OFlag.O_CREAT, OFlag.O_TRUNC]
                      [ModeBit.S_IRUSR, ModeBit.S_IWUSR] false,
                    Event.err, Event.dup2 false, Event.close false] }) := by
    intro w1 hcwd
    rcases hfail with hn | ⟨p, hp, hopen⟩
    · subst hn
      exact redirect_command_null_path sys w1 (c :: args) rest hgt
    · subst hp
      exact redirect_command_open_fails sys w1 (c :: args) p rest hgt (by rw [hcwd]; exact hopen)
  have hargv := argv_map_str (c :: args) (nxt :: rest)
  have hexec : execute_command sys 0
      ((c :: args).map Slot.str ++ Slot.str GT :: nxt :: rest) w
        = locate_and_exec sys ((c :: args).map Slot.str ++ Slot.null :: nxt :: rest)
            { cwd := w.cwd, stdout := w.stdout,
              trace := w.trace
                ++ [Event.fork 0,
                    Event.sys_open (slot_str nxt) [OFlag.O_RDWR, OFlag.O_CREAT, OFlag.O_TRUNC]
                      [ModeBit.S_IRUSR, ModeBit.S_IWUSR] false,
                    Event.err, Event.dup2 false, Event.close false] } := by
    have h := hred (emit (Event.fork 0) w) rfl
    unfold execute_command
    rw [if_neg (by decide), if_pos rfl, h]
    simp [emit]
  refine ⟨hred w rfl, hargv, hexec, ?_⟩
  rw [hexec, locate_and_exec_calls sys _ c (c :: args) _ (by simp [slot]) hargv]
  simp [exec_calls_append, exec_calls]

/-- C11, witness: `ls -l > out.txt` where no `open` succeeds: one error from
the resolver, then `execv` of `/bin/ls` with `["ls", "-l"]`. -/
theorem C11_open_failure_not_aborted_witness :
    exec_calls (execute_command sys_closed 0
        (("ls".toList :: ["-l".toList]).map Slot.str
          ++ Slot.str GT :: Slot.str "out.txt".toList :: [Slot.null]) world0).2.trace
      = exec_calls world0.trace
          ++ ((paths.find? (fun d =>
                  sys_closed.access world0.cwd (snprintf MAX_COMMAND_SIZE d "ls".toList))).map
                (fun d => (snprintf MAX_COMMAND_SIZE d "ls".toList,
                  "ls".toList :: ["-l".toList]))).toList :=
  (C11_open_failure_not_aborted sys_closed world0 "ls".toList ["-l".toList]
    (Slot.str "out.txt".toList) [Slot.null] (by decide)
    (Or.inr ⟨"out.txt".toList, rfl, rfl⟩)).2.2.2

/-- C12, evaluated where no sentinel is written.  A command with ten arguments
and the closing newline fills slots `0..10` with its eleven tokens; the loop
stops at the cap before the empty last field, so no `NULL` is stored and slot 11
is unwritten: the argument list has no end inside the written slots, and the
scan of `redirect_command` reads the unwritten slot 11.  A line without a closing
delimiter, `cd /tmp`, has no empty field either: the arity test of `cd` reads the
unwritten slot 2. -/
theorem C12_no_sentinel_written :
    parsing_command "echo 1 2 3 4 5 6 7 8 9 10\n".toList
        = (["echo", "1", "2", "3", "4", "5", "6", "7", "8", "9", "10"].map
              (fun x => Slot.str x.toList))
            ++ List.replicate 21 Slot.uninit
      ∧ argv (parsing_command "echo 1 2 3 4 5 6 7 8 9 10\n".toList) = none
      ∧ (redirect_command sys_demo (parsing_command "echo 1 2 3 4 5 6 7 8 9 10\n".toList)
            world0).1 = Outcome.undef
      ∧ (main_iteration sys_demo 0 "echo 1 2 3 4 5 6 7 8 9 10\n".toList world0).1
          = Outcome.undef
      ∧ parsing_command "cd /tmp".toList
          = [Slot.str "cd".toList, Slot.str "/tmp".toList] ++ List.replicate 30 Slot.uninit
      ∧ (handle_built_in sys_demo (parsing_command "cd /tmp".toList) world0).1
          = Outcome.undef := by
  decide

/-- C13. Dispatcher decline: for a token list that ends in a sentinel and whose
first token is `t0`, `handle_built_in` returns 0 exactly when `t0` is none of
`cd`, `exit`, `quit` (compared character by character), and then the world is
returned as it was: no error, no `chdir`, no termination (the function never
stores into the token list).  For `cd` it returns 1 whatever follows and
whatever `chdir` answers; for `exit` and `quit` it ends the process with
status 0. -/
theorem C13_dispatcher_decline (sys : Sys) (w : World) (token : List Slot) (t0 : Str)
    (args : List Str) (h0 : slot token 0 = Slot.str t0) (hterm : argv token = some args) :
    ((handle_built_in sys token w).1 = Outcome.ret 0 ↔ (t0 ≠ CD ∧ t0 ≠ EXIT ∧ t0 ≠ QUIT))
      ∧ (t0 ≠ CD → t0 ≠ EXIT → t0 ≠ QUIT → handle_built_in sys token w = (Outcome.ret 0, w))
      ∧ (t0 = CD → (handle_built_in sys token w).1 = Outcome.ret 1)
      ∧ (t0 = EXIT ∨ t0 = QUIT → handle_built_in sys token w = (Outcome.terminated 0, w)) := by
  have hdecl : t0 ≠ CD → t0 ≠ EXIT → t0 ≠ QUIT →
      handle_built_in sys token w = (Outcome.ret 0, w) := by
    intro h1 h2 h3
    simp only [EXIT, QUIT, CD] at h1 h2 h3
    simp [handle_built_in, h0, h1, h2, h3]
  have hexit : t0 = EXIT ∨ t0 = QUIT →
      handle_built_in sys token w = (Outcome.terminated 0, w) := by
    intro h
    simp only [EXIT, QUIT] at h
    simp [handle_built_in, h0, h]
  have hcd : t0 = CD → (handle_built_in sys token w).1 = Outcome.ret 1 := by
    intro h
    subst h
    rcases argv_some_cases token args hterm with ⟨rest, ht, _⟩ | ⟨a, rest, as, ht, has, _⟩
    · rw [ht] at h0
      simp [slot] at h0
    · subst ht
      rcases argv_some_cases rest as has with ⟨r1, ht1, _⟩ | ⟨b, r1, bs, ht1, hbs, _⟩
      · subst ht1
        simp [handle_built_in, slot, CD] at h0 ⊢
        simp [h0]
      · subst ht1
        rcases argv_some_cases r1 bs hbs with ⟨r2, ht2, _⟩ | ⟨d, r2, ds, ht2, _, _⟩
        · subst ht2
          simp only [slot, List.getD_cons_zero, Slot.str.injEq] at h0
          subst h0
          cases hc : sys.chdir w.cwd b <;> simp [handle_built_in, slot, CD, hc]
        · subst ht2
          simp only [slot, List.getD_cons_zero, Slot.str.injEq] at h0
          subst h0
          simp [handle_built_in, slot, CD]
  refine ⟨⟨?_, fun h => by rw [hdecl h.1 h.2.1 h.2.2]⟩, hdecl, hcd, hexit⟩
  intro hret
  refine ⟨?_, ?_, ?_⟩
  · intro h
    rw [hcd h] at hret
    simp at hret
  · intro h
    rw [hexit (Or.inl h)] at hret
    simp at hret
  · intro h
    rw [hexit (Or.inr h)] at hret
    simp at hret

/-- C13, witness: `CD /tmp` (upper case) is declined, with the world untouched. -/
theorem C13_dispatcher_decline_witness :
    ((handle_built_in sys_demo (parsing_command "CD /tmp\n".toList) world0).1 = Outcome.ret 0
        ↔ ("CD".toList ≠ CD ∧ "CD".toList ≠ EXIT ∧ "CD".toList ≠ QUIT))
      ∧ ("CD".toList ≠ CD → "CD".toList ≠ EXIT → "CD".toList ≠ QUIT →
          handle_built_in sys_demo (parsing_command "CD /tmp\n".toList) world0
            = (Outcome.ret 0, world0))
      ∧ ("CD".toList = CD →
          (handle_built_in sys_demo (parsing_command "CD /tmp\n".toList) world0).1
            = Outcome.ret 1)
      ∧ ("CD".toList = EXIT ∨ "CD".toList = QUIT →
          handle_built_in sys_demo (parsing_command "CD /tmp\n".toList) world0
            = (Outcome.terminated 0, world0)) :=
  C13_dispatcher_decline sys_demo world0 (parsing_command "CD /tmp\n".toList) "CD".toList
    ["CD".toList, "/tmp".toList] (by decide) (by decide)

/-- C14. Gap-preserving tokenization: with the fields of a line being the line
cut at every single space, tab or newline (`List.splitOnP`), for every `k` below
both the number of fields and 11, slot `k` holds the sentinel when field `k` is
empty and otherwise field `k` cut to at most 255 characters; an empty field
keeps its slot. -/
theorem C14_gap_preserving (line : Str) (k : Nat) (hk : k < min (fields line).length 11) :
    fields line = line.splitOnP (fun c => decide (c ∈ WHITESPACE))
      ∧ slot (parsing_command line) k
          = if (fields line).getD k [] = [] then Slot.null
            else Slot.str (((fields line).getD k []).take 255) := by
  refine ⟨fields_eq_splitOnP line, ?_⟩
  rw [slot_of_field line k hk, slot_of_eq]

/-- C14, witness: in `ls`, two spaces, `-l` the empty field 1 keeps slot 1. -/
theorem C14_gap_preserving_witness :
    fields "ls  -l\n".toList = "ls  -l\n".toList.splitOnP (fun c => decide (c ∈ WHITESPACE))
      ∧ slot (parsing_command "ls  -l\n".toList) 1
          = if (fields "ls  -l\n".toList).getD 1 [] = [] then Slot.null
            else Slot.str (((fields "ls  -l\n".toList).getD 1 []).take 255) :=
  C14_gap_preserving "ls  -l\n".toList 1 (by decide)

/-- C15, as the claim states it, fails at `echo hi > out.txt`: after
`redirect_command` slot 2 (the marker) holds the sentinel, but slot 3 still
holds the path `out.txt`. -/
theorem C15_path_slot_kept_counterexample :
    (redirect_command sys_demo (parsing_command "echo hi > out.txt\n".toList) world0).1
        = Outcome.ret
            ([Slot.str "echo".toList, Slot.str "hi".toList, Slot.null,
              Slot.str "out.txt".toList, Slot.null] ++ List.replicate 27 Slot.uninit)
      ∧ slot ([Slot.str "echo".toList, Slot.str "hi".toList, Slot.null,
              Slot.str "out.txt".toList, Slot.null] ++ List.replicate 27 Slot.uninit) 3
          ≠ Slot.null := by
  decide

/-- C15, amended. When the tokens at indices `0..i-1` are not the marker, slot
`i` holds `>` and slot `i+1` holds a path `p`, then after `redirect_command` slot
`i` holds the sentinel and every other slot is unchanged; slot `i+1` still holds
`p`.  The argument list read up to the first sentinel holds neither. -/
theorem C15_marker_slot_cleared (sys : Sys) (w : World) (token : List Slot) (pre : List Str)
    (p : Str) (rest : List Slot) (hgt : GT ∉ pre)
    (htoken : token = pre.map Slot.str ++ Slot.str GT :: Slot.str p :: rest) :
    (redirect_command sys token w).1 = Outcome.ret (token.set pre.length Slot.null)
      ∧ slot (token.set pre.length Slot.null) pre.length = Slot.null
      ∧ slot (token.set pre.length Slot.null) (pre.length + 1) = Slot.str p
      ∧ (∀ k, k ≠ pre.length → slot (token.set pre.length Slot.null) k = slot token k)
      ∧ argv (token.set pre.length Slot.null) = some pre := by
  subst htoken
  rw [set_at_length]
  refine ⟨(redirect_command_at_marker sys w pre p rest hgt).1, slot_at_length pre _ _,
    slot_after_length pre _ _ _, ?_, argv_map_str pre _⟩
  intro k hk
  rw [← set_at_length pre (Slot.str GT) Slot.null (Slot.str p :: rest)]
  exact slot_set_ne _ _ _ _ hk

/-- C15, witness: `echo hi > out.txt`. -/
theorem C15_marker_slot_cleared_witness :
    (redirect_command sys_demo (parsing_command "echo hi > out.txt\n".toList) world0).1
        = Outcome.ret ((parsing_command "echo hi > out.txt\n".toList).set
            ["echo".toList, "hi".toList].length Slot.null)
      ∧ slot ((parsing_command "echo hi > out.txt\n".toList).set
            ["echo".toList, "hi".toList].length Slot.null) ["echo".toList, "hi".toList].length
          = Slot.null
      ∧ slot ((parsing_command "echo hi > out.txt\n".toList).set
            ["echo".toList, "hi".toList].length Slot.null)
            (["echo".toList, "hi".toList].length + 1)
          = Slot.str "out.txt".toList
      ∧ (∀ k, k ≠ ["echo".toList, "hi".toList].length →
          slot ((parsing_command "echo hi > out.txt\n".toList).set
            ["echo".toList, "hi".toList].length Slot.null) k
            = slot (parsing_command "echo hi > out.txt\n".toList) k)
      ∧ argv ((parsing_command "echo hi > out.txt\n".toList).set
            ["echo".toList, "hi".toList].length Slot.null)
          = some ["echo".toList, "hi".toList] :=
  C15_marker_slot_cleared sys_demo world0 (parsing_command "echo hi > out.txt\n".toList)
    ["echo".toList, "hi".toList] "out.txt".toList (Slot.null :: List.replicate 27 Slot.uninit)
    (by decide) (by decide)

/-- C16. Only the first marker is honoured.  For tokens `toks` before the first
sentinel: when `>` occurs twice or more among them, with `pre` the tokens before
the first `>` and `q` the token right after it, `redirect_command` makes exactly
one `open`, on `q`, and stores the sentinel over the first `>` only, so the
argument list is cut to `pre`; when `>` does not occur, it opens nothing and
returns the array and the world as they were. -/
theorem C16_first_marker_only (sys : Sys) (w : World) (toks : List Str) (rest : List Slot) :
    (2 ≤ toks.count GT →
        ∃ pre q post, toks = pre ++ GT :: q :: post ∧ GT ∉ pre
          ∧ (redirect_command sys (toks.map Slot.str ++ Slot.null :: rest) w).1
              = Outcome.ret (pre.map Slot.str ++ Slot.null :: Slot.str q
                  :: (post.map Slot.str ++ Slot.null :: rest))
          ∧ open_calls (redirect_command sys (toks.map Slot.str ++ Slot.null :: rest) w).2.trace
              = open_calls w.trace ++ [(some q, sys.open_ok w.cwd q)]
          ∧ argv (pre.map Slot.str ++ Slot.null :: Slot.str q
                  :: (post.map Slot.str ++ Slot.null :: rest)) = some pre)
      ∧ (GT ∉ toks →
          redirect_command sys (toks.map Slot.str ++ Slot.null :: rest) w
            = (Outcome.ret (toks.map Slot.str ++ Slot.null :: rest), w)) := by
  refine ⟨?_, fun h => redirect_command_no_marker sys w toks rest h⟩
  intro h2
  obtain ⟨pre, q, post, ht, hpre⟩ := first_marker_split toks h2
  have hform : toks.map Slot.str ++ Slot.null :: rest
      = pre.map Slot.str ++ Slot.str GT :: Slot.str q
          :: (post.map Slot.str ++ Slot.null :: rest) := by
    rw [ht]; simp
  have hm := redirect_command_at_marker sys w pre q (post.map Slot.str ++ Slot.null :: rest) hpre
  rw [← hform] at hm
  exact ⟨pre, q, post, ht, hpre, hm.1, hm.2, argv_map_str pre _⟩

/-- C16, witness: in `ls > a > b` only `a` is opened; `ls -l` opens nothing. -/
theorem C16_first_marker_only_witness :
    (∃ pre q post, ["ls".toList, GT, "a".toList, GT, "b".toList] = pre ++ GT :: q :: post
          ∧ GT ∉ pre
          ∧ (redirect_command sys_demo
                (["ls".toList, GT, "a".toList, GT, "b".toList].map Slot.str
                  ++ Slot.null :: []) world0).1
              = Outcome.ret (pre.map Slot.str ++ Slot.null :: Slot.str q
                  :: (post.map Slot.str ++ Slot.null :: []))
          ∧ open_calls (redirect_command sys_demo
                (["ls".toList, GT, "a".toList, GT, "b".toList].map Slot.str
                  ++ Slot.null :: []) world0).2.trace
              = open_calls world0.trace ++ [(some q, sys_demo.open_ok world0.cwd q)]
          ∧ argv (pre.map Slot.str ++ Slot.null :: Slot.str q
                  :: (post.map Slot.str ++ Slot.null :: [])) = some pre)
      ∧ redirect_command sys_demo
            (["ls".toList, "-l".toList].map Slot.str ++ Slot.null :: []) world0
          = (Outcome.ret (["ls".toList, "-l".toList].map Slot.str ++ Slot.null :: []), world0) :=
  ⟨(C16_first_marker_only sys_demo world0 ["ls".toList, GT, "a".toList, GT, "b".toList] []).1
      (by decide),
   (C16_first_marker_only sys_demo world0 ["ls".toList, "-l".toList] []).2 (by decide)⟩

/-- C17. A raw line is dispatched exactly when it is non-empty and its first
character is not a space, tab or newline.  A line that is not is ignored: the
iteration returns with the world as it was.  A dispatched line whose first
token is none of `cd`, `exit`, `quit` goes on to `execute_command`.  The line
` ls`, with its leading space, is ignored in full. -/
theorem C17_dispatch_iff_first_character (sys : Sys) (pid : Int) (line : Str) (w : World) :
    (Dispatched sys pid line w ↔ StartsWithToken line)
      ∧ (¬ StartsWithToken line → main_iteration sys pid line w = (Outcome.ret (), w))
      ∧ (∀ t, slot (parsing_command line) 0 = Slot.str t → t ≠ CD → t ≠ EXIT → t ≠ QUIT →
          main_iteration sys pid line w
            = execute_command sys pid (parsing_command line)
                (emit Event.call_execute_command (emit Event.call_handle_built_in w)))
      ∧ main_iteration sys pid [' ', 'l', 's'] w = (Outcome.ret (), w) := by
  have hignored : ∀ l : Str, slot (parsing_command l) 0 = Slot.null →
      main_iteration sys pid l w = (Outcome.ret (), w) := by
    intro l h0
    simp [main_iteration, h0]
  refine ⟨?_, ?_, ?_, ?_⟩
  · rcases slot_zero_cases line with ⟨hs, t, h0⟩ | ⟨hns, h0⟩
    · refine ⟨fun _ => hs, fun _ => ?_⟩
      obtain ⟨tail, ht⟩ := main_iteration_dispatched sys pid line w t h0
      exact ⟨tail, by rw [ht]; simp [emit]⟩
    · refine ⟨fun hd => ?_, fun hs => absurd hs hns⟩
      obtain ⟨tail, ht⟩ := hd
      rw [hignored line h0] at ht
      simp at ht
  · intro hns
    rcases slot_zero_cases line with ⟨hs, _⟩ | ⟨_, h0⟩
    · exact absurd hs hns
    · exact hignored line h0
  · intro t h0 h1 h2 h3
    simp only [CD, EXIT, QUIT] at h1 h2 h3
    simp [main_iteration, handle_built_in, h0, h1, h2, h3]
  · exact hignored _ (by decide)

/-- C17, witness: `ls -l` is dispatched and goes on to `execute_command`; the
empty line is ignored. -/
theorem C17_dispatch_iff_first_character_witness :
    Dispatched sys_demo 0 "ls -l\n".toList world0
      ∧ main_iteration sys_demo 0 [] world0 = (Outcome.ret (), world0)
      ∧ main_iteration sys_demo 0 "ls -l\n".toList world0
          = execute_command sys_demo 0 (parsing_command "ls -l\n".toList)
              (emit Event.call_execute_command (emit Event.call_handle_built_in world0)) :=
  ⟨(C17_dispatch_iff_first_character sys_demo 0 "ls -l\n".toList world0).1.2
      ⟨'l', "s -l\n".toList, rfl, by decide⟩,
   (C17_dispatch_iff_first_character sys_demo 0 [] world0).2.1
      (by rintro ⟨c, cs, h, _⟩; simp at h),
   (C17_dispatch_iff_first_character sys_demo 0 "ls -l\n".toList world0).2.2.1
      "ls".toList (by decide) (by decide) (by decide) (by decide)⟩

/-- C18. Token invariant: every slot `parsing_command` writes holds the sentinel
or a string; a string held by a slot is non-empty, has no space, tab or newline
in it, and is a contiguous piece of the raw line; and the strings, taken in slot
order, occur in the line one after the other from left to right. -/
theorem C18_token_invariant (line : Str) :
    (∀ k s, slot (parsing_command line) k = Slot.str s →
        s ≠ [] ∧ (∀ c ∈ s, c ∉ WHITESPACE) ∧ s <:+: line)
      ∧ occur_in_order (str_tokens (parsing_command line)) line := by
  have hocc : occur_in_order (str_tokens (parsing_command line)) line := by
    rw [str_tokens_parsing_command]
    exact occur_of_joined _ _ (joined_fields line) 11
  refine ⟨?_, hocc⟩
  intro k s hk
  have hmem := mem_str_tokens_of_slot _ k s hk
  have hinfix := occur_infix _ line hocc s hmem
  rw [str_tokens_parsing_command] at hmem
  obtain ⟨f, hf, hne, hs⟩ := str_tokens_of_fields _ s hmem
  have hfield : f ∈ fields line := List.mem_of_mem_take hf
  refine ⟨?_, ?_, hinfix⟩
  · rw [hs]
    cases f with
    | nil => exact absurd rfl hne
    | cons c cs => simp
  · intro c hc
    rw [hs] at hc
    exact fields_no_delimiter line f hfield c (List.mem_of_mem_take hc)

/-- C18, witness: slot 2 of `ls`, two spaces, `-l` holds `-l`. -/
theorem C18_token_invariant_witness :
    "-l".toList ≠ [] ∧ (∀ c ∈ "-l".toList, c ∉ WHITESPACE)
      ∧ "-l".toList <:+: "ls  -l\n".toList :=
  (C18_token_invariant "ls  -l\n".toList).1 2 "-l".toList (by decide)

end Msh
